import Mathlib

/-!
# Verification of the satoshi-suite coin-selection and commit/reveal engine

A shallow embedding of the core of the `satoshi-suite` repository:

* `crates/utxo-selection/src/lib.rs` — coin selection strategies
  (`strat_handler`, `select_utxos`, `select_utxos_branch_and_bound`, …);
* `crates/wallet/src/builder.rs` — commit/reveal transaction builders
  (`build_commit_transaction`, `build_reveal_transaction`);
* `crates/ordinals/src/lib.rs` — the inscription envelope encoder
  (`append_reveal_script_to_builder`, `append`, `append_array`, `is_chunked`);
* `crates/wallet/src/multisig_wallet.rs` — multisig xpub extraction
  (`extract_int_ext_xpubs`).

Machine integers (`u64` satoshi amounts) are modelled as `Nat`, with the
`u64` bound made explicit where the Rust code checks it (`checked_add`,
`checked_sub`, the `u64::MAX` sentinel in branch-and-bound).  Fallible Rust
functions returning `Result`/`Option` are modelled with `Except`/`Option`.
Cryptographic primitives (Schnorr signing, sighash computation, taproot
control blocks) are modelled as free symbolic constructors: the claims about
them are structural (which data is signed, with which key, in which order),
not about the hash functions themselves.
-/

/-- `u64::MAX` as a natural number. -/
def u64Max : Nat := 2 ^ 64 - 1

/-- `bitcoincore_rpc::json::ListUnspentResultEntry`, restricted to the fields
the selection code reads (`txid`, `vout`, `amount`, `confirmations`).  The
Rust `PartialEq` used by `Vec::contains` compares fields; here `DecidableEq`
plays that role. Amounts are satoshis (`bitcoin::Amount`, a `u64`), modelled
as `Nat`. -/
structure ListUnspentResultEntry where
  txid : Nat
  vout : Nat
  amount : Nat
  confirmations : Nat
deriving DecidableEq

/-- Sum of the `amount` fields of a list of unspent outputs. -/
def sumAmounts (l : List ListUnspentResultEntry) : Nat :=
  (l.map (fun u => u.amount)).sum

/-- `UtilsError` from `crates/utxo-selection/src/lib.rs` (the
`JsonParsingError` payload is irrelevant to the claims and dropped). -/
inductive UtilsError where
  | externalXpubNotFound
  | internalXpubNotFound
  | insufficientUTXOs
  | jsonParsingError
deriving DecidableEq

/-- `UTXOStrategy` from `crates/utxo-selection/src/lib.rs` — exactly the four
variants declared there. -/
inductive UTXOStrategy where
  | branchAndBound
  | fifo
  | largestFirst
  | smallestFirst
deriving DecidableEq

/-- The `for` loop of `select_utxos` in `crates/utxo-selection/src/lib.rs`
(lines 135–153): push the next output, add its amount, and return as soon as
the running total reaches `target_amount + fee_amount`; error out when the
list is exhausted. -/
def select_utxos_go (target_amount fee_amount : Nat) :
    List ListUnspentResultEntry → List ListUnspentResultEntry → Nat →
    Except UtilsError (List ListUnspentResultEntry)
  | [], _, _ => .error .insufficientUTXOs
  | utxo :: rest, selected_utxos, total_amount =>
    let selected' := selected_utxos ++ [utxo]
    let total' := total_amount + utxo.amount
    if target_amount + fee_amount ≤ total' then .ok selected'
    else select_utxos_go target_amount fee_amount rest selected' total'

/-- `select_utxos` from `crates/utxo-selection/src/lib.rs`: accumulate the
given (already ordered) outputs in order until the threshold is met. -/
def select_utxos (sorted_utxos : List ListUnspentResultEntry)
    (target_amount fee_amount : Nat) : Except UtilsError (List ListUnspentResultEntry) :=
  select_utxos_go target_amount fee_amount sorted_utxos [] 0

/-- `select_utxos_fifo`: consume the outputs in the order given. -/
def select_utxos_fifo (utxos : List ListUnspentResultEntry)
    (target_amount fee_amount : Nat) : Except UtilsError (List ListUnspentResultEntry) :=
  select_utxos utxos target_amount fee_amount

/-- `select_utxos_largest_first`: stable-sort by amount descending
(`sort_by(|a, b| b.amount.cmp(&a.amount))`), then accumulate. -/
def select_utxos_largest_first (utxos : List ListUnspentResultEntry)
    (target_amount fee_amount : Nat) : Except UtilsError (List ListUnspentResultEntry) :=
  select_utxos (utxos.mergeSort (fun a b => b.amount ≤ a.amount)) target_amount fee_amount

/-- `select_utxos_smallest_first`: stable-sort by amount ascending
(`sort_by(|a, b| a.amount.cmp(&b.amount))`), then accumulate. -/
def select_utxos_smallest_first (utxos : List ListUnspentResultEntry)
    (target_amount fee_amount : Nat) : Except UtilsError (List ListUnspentResultEntry) :=
  select_utxos (utxos.mergeSort (fun a b => a.amount ≤ b.amount)) target_amount fee_amount

/-! ## Branch-and-bound

The Rust `select_utxos_branch_and_bound` runs a breadth-first search over a
`VecDeque` of partial selections.  The queue processing is a `while let`
loop; we realize it as a well-founded recursion.  The measure counts, for
each queued partial selection, how many distinct candidate outputs it could
still absorb. -/

/-- Weight function for the termination measure: `bnbW n m` bounds (strictly)
the number of queue states generated from a state that can still absorb `m`
distinct outputs, when each expansion step enqueues at most `n` children. -/
def bnbW (n : Nat) : Nat → Nat
  | 0 => 1
  | m + 1 => 1 + n * bnbW n m

/-- Number of distinct candidate outputs not yet contained in the partial
selection `sel` (the states `!current_selection.contains(utxo)` can still
add). -/
def bnbMissing (utxos sel : List ListUnspentResultEntry) : Nat :=
  (utxos.dedup.filter (fun u => decide (u ∉ sel))).length

/-- Termination measure for the branch-and-bound queue. -/
def bnbMeasure (utxos : List ListUnspentResultEntry)
    (queue : List (List ListUnspentResultEntry × Nat)) : Nat :=
  (queue.map (fun st => bnbW utxos.length (bnbMissing utxos st.1))).sum

theorem bnbW_pos (n m : Nat) : 0 < bnbW n m := by
  cases m <;> simp [bnbW]

theorem bnbMeasure_cons (utxos : List ListUnspentResultEntry)
    (sel : List ListUnspentResultEntry) (t : Nat)
    (rest : List (List ListUnspentResultEntry × Nat)) :
    bnbMeasure utxos ((sel, t) :: rest) =
      bnbW utxos.length (bnbMissing utxos sel) + bnbMeasure utxos rest := by
  simp [bnbMeasure]

theorem bnbMeasure_append (utxos : List ListUnspentResultEntry)
    (q₁ q₂ : List (List ListUnspentResultEntry × Nat)) :
    bnbMeasure utxos (q₁ ++ q₂) = bnbMeasure utxos q₁ + bnbMeasure utxos q₂ := by
  simp [bnbMeasure]

/-- Adding one admissible output to a partial selection decreases the count of
still-missing distinct outputs by exactly one. -/
theorem bnbMissing_append (utxos sel : List ListUnspentResultEntry)
    (u : ListUnspentResultEntry) (hu : u ∈ utxos) (hns : u ∉ sel) :
    bnbMissing utxos (sel ++ [u]) + 1 = bnbMissing utxos sel := by
  have hpt : ∀ x ∈ utxos.dedup,
      (decide (x ∉ sel ++ [u])) = (decide (x ≠ u) && decide (x ∉ sel)) := by
    intro x _
    by_cases h1 : x ∈ sel <;> by_cases h2 : x = u <;>
      simp [h1, h2, List.mem_append]
  have hfilter : utxos.dedup.filter (fun x => decide (x ∉ sel ++ [u])) =
      (utxos.dedup.filter (fun x => decide (x ∉ sel))).filter (fun x => decide (x ≠ u)) := by
    rw [List.filter_filter]
    exact List.filter_congr hpt
  have hndL : (utxos.dedup.filter (fun x => decide (x ∉ sel))).Nodup :=
    (List.nodup_dedup utxos).filter _
  have huL : u ∈ utxos.dedup.filter (fun x => decide (x ∉ sel)) := by
    simp [List.mem_filter, List.mem_dedup, hu, hns]
  have herase : (utxos.dedup.filter (fun x => decide (x ∉ sel))).filter
      (fun x => decide (x ≠ u)) =
      (utxos.dedup.filter (fun x => decide (x ∉ sel))).erase u := by
    rw [List.Nodup.erase_eq_filter hndL]
    exact (List.filter_congr (fun x _ => by by_cases h : x = u <;> simp [h])).symm
  have hlen := List.length_erase_of_mem huL
  have hpos : 0 < (utxos.dedup.filter (fun x => decide (x ∉ sel))).length :=
    List.length_pos.mpr (by intro h; rw [h] at huL; simp at huL)
  unfold bnbMissing
  rw [hfilter, herase, hlen]
  omega

/-- The states pushed when expanding a partial selection weigh strictly less
than the state being expanded. -/
theorem bnbMeasure_pushed (utxos sel : List ListUnspentResultEntry) (total : Nat) :
    bnbMeasure utxos ((utxos.filter (fun u => decide (u ∉ sel))).map
        (fun u => (sel ++ [u], total + u.amount))) <
      bnbW utxos.length (bnbMissing utxos sel) := by
  set F := utxos.filter (fun u => decide (u ∉ sel)) with hF
  rcases Decidable.em (F = []) with hnil | hne
  · rw [hnil]
    simpa [bnbMeasure] using bnbW_pos utxos.length (bnbMissing utxos sel)
  · obtain ⟨u₀, hu₀⟩ := List.exists_mem_of_ne_nil F hne
    have hmemF : ∀ u ∈ F, u ∈ utxos ∧ u ∉ sel := by
      intro u hu
      have := List.mem_filter.mp (hF ▸ hu)
      exact ⟨this.1, by simpa using this.2⟩
    have hmpos : 0 < bnbMissing utxos sel := by
      obtain ⟨h1, h2⟩ := hmemF u₀ hu₀
      have hmem : u₀ ∈ utxos.dedup.filter (fun x => decide (x ∉ sel)) := by
        simp [List.mem_filter, List.mem_dedup, h1, h2]
      unfold bnbMissing
      exact List.length_pos.mpr (by intro h; rw [h] at hmem; simp at hmem)
    have hms : ∀ u ∈ F, bnbMissing utxos (sel ++ [u]) = bnbMissing utxos sel - 1 := by
      intro u hu
      obtain ⟨h1, h2⟩ := hmemF u hu
      have := bnbMissing_append utxos sel u h1 h2
      omega
    have hcomp : bnbMeasure utxos (F.map (fun u => (sel ++ [u], total + u.amount))) =
        (F.map (fun u => bnbW utxos.length (bnbMissing utxos (sel ++ [u])))).sum := by
      simp only [bnbMeasure, List.map_map]
      rfl
    have hrep := List.eq_replicate_of_mem (l :=
        F.map (fun u => bnbW utxos.length (bnbMissing utxos (sel ++ [u]))))
      (a := bnbW utxos.length (bnbMissing utxos sel - 1))
      (by
        intro b hb
        obtain ⟨u, hu, hbu⟩ := List.mem_map.mp hb
        rw [← hbu, hms u hu])
    have hsum : bnbMeasure utxos (F.map (fun u => (sel ++ [u], total + u.amount))) =
        F.length * bnbW utxos.length (bnbMissing utxos sel - 1) := by
      rw [hcomp, hrep, List.sum_replicate, smul_eq_mul, List.length_map]
    have hlen : F.length ≤ utxos.length := hF ▸ List.length_filter_le _ utxos
    have hW : bnbW utxos.length (bnbMissing utxos sel) =
        1 + utxos.length * bnbW utxos.length (bnbMissing utxos sel - 1) := by
      conv_lhs => rw [show bnbMissing utxos sel = (bnbMissing utxos sel - 1) + 1 by omega]
      rfl
    rw [hsum, hW]
    have := Nat.mul_le_mul_right (bnbW utxos.length (bnbMissing utxos sel - 1)) hlen
    omega

/-- The `while let Some((current_selection, current_total)) = queue.pop_front()`
loop of `select_utxos_branch_and_bound` (lines 80–97): pop the front state;
if its total meets the threshold, record it when its change improves on the
best change so far; otherwise enqueue every extension by an output not yet
contained in the selection. -/
def bnbLoop (utxos : List ListUnspentResultEntry) (threshold : Nat) :
    List (List ListUnspentResultEntry × Nat) →
    Option (List ListUnspentResultEntry) → Nat →
    Option (List ListUnspentResultEntry)
  | [], current_best_solution, _ => current_best_solution
  | (current_selection, current_total) :: rest, current_best_solution, current_best_change =>
    if threshold ≤ current_total then
      let change := current_total - threshold
      if change < current_best_change then
        bnbLoop utxos threshold rest (some current_selection) change
      else
        bnbLoop utxos threshold rest current_best_solution current_best_change
    else
      bnbLoop utxos threshold
        (rest ++ (utxos.filter (fun u => decide (u ∉ current_selection))).map
          (fun u => (current_selection ++ [u], current_total + u.amount)))
        current_best_solution current_best_change
termination_by queue _ _ => bnbMeasure utxos queue
decreasing_by
  · rw [bnbMeasure_cons]
    have := bnbW_pos utxos.length (bnbMissing utxos current_selection)
    omega
  · rw [bnbMeasure_cons]
    have := bnbW_pos utxos.length (bnbMissing utxos current_selection)
    omega
  · rw [bnbMeasure_cons, bnbMeasure_append]
    have := bnbMeasure_pushed utxos current_selection current_total
    omega

/-- `select_utxos_branch_and_bound` from `crates/utxo-selection/src/lib.rs`
(lines 60–100): breadth-first search seeded with the empty selection, best
change initialised to `u64::MAX`. -/
def select_utxos_branch_and_bound (utxos : List ListUnspentResultEntry)
    (target_amount fee_amount : Nat) : Option (List ListUnspentResultEntry) :=
  bnbLoop utxos (target_amount + fee_amount) [([], 0)] none u64Max

/-- `strat_handler` from `crates/utxo-selection/src/lib.rs` (lines 41–58):
dispatch on the strategy; the branch-and-bound `None` is surfaced as
`InsufficientUTXOs`. -/
def strat_handler (utxos : List ListUnspentResultEntry)
    (target_amount fee_amount : Nat) (utxo_strategy : UTXOStrategy) :
    Except UtilsError (List ListUnspentResultEntry) :=
  match utxo_strategy with
  | .branchAndBound =>
    match select_utxos_branch_and_bound utxos target_amount fee_amount with
    | some sel => .ok sel
    | none => .error .insufficientUTXOs
  | .fifo => select_utxos_fifo utxos target_amount fee_amount
  | .largestFirst => select_utxos_largest_first utxos target_amount fee_amount
  | .smallestFirst => select_utxos_smallest_first utxos target_amount fee_amount

/-! ## Basic facts about the accumulating selector -/

theorem sumAmounts_nil : sumAmounts [] = 0 := rfl

theorem sumAmounts_append_singleton (l : List ListUnspentResultEntry)
    (u : ListUnspentResultEntry) :
    sumAmounts (l ++ [u]) = sumAmounts l + u.amount := by
  simp [sumAmounts]

theorem sumAmounts_cons (u : ListUnspentResultEntry) (l : List ListUnspentResultEntry) :
    sumAmounts (u :: l) = u.amount + sumAmounts l := by
  simp [sumAmounts]

/-- A duplicate-free list whose members all come from `utxos` has total amount
at most the total amount of `utxos`. -/
theorem sumAmounts_le_of_subset {S utxos : List ListUnspentResultEntry}
    (hnd : S.Nodup) (hsub : ∀ u ∈ S, u ∈ utxos) :
    sumAmounts S ≤ sumAmounts utxos := by
  obtain ⟨l, hperm, hsl⟩ := List.subperm_of_subset hnd hsub
  have h1 : (l.map (fun u => u.amount)).sum = (S.map (fun u => u.amount)).sum :=
    (hperm.map (fun u => u.amount)).sum_eq
  have h2 : (l.map (fun u => u.amount)).sum ≤ (utxos.map (fun u => u.amount)).sum :=
    (hsl.map (fun u => u.amount)).sum_le_sum (fun a _ => Nat.zero_le a)
  unfold sumAmounts
  omega

/-- If the accumulating loop succeeds, the selected amounts reach the
threshold. -/
theorem select_utxos_go_ok_sum (target_amount fee_amount : Nat) :
    ∀ (rest sel : List ListUnspentResultEntry) (tot : Nat), tot = sumAmounts sel →
    ∀ out, select_utxos_go target_amount fee_amount rest sel tot = .ok out →
      target_amount + fee_amount ≤ sumAmounts out := by
  intro rest
  induction rest with
  | nil => intro sel tot _ out h; simp [select_utxos_go] at h
  | cons u rest ih =>
    intro sel tot htot out h
    simp only [select_utxos_go] at h
    split at h
    · rename_i hle
      cases h
      rw [sumAmounts_append_singleton]
      omega
    · exact ih (sel ++ [u]) (tot + u.amount)
        (by rw [sumAmounts_append_singleton, htot]) out h

/-- The accumulating loop fails exactly when the remaining list is empty or
even the whole remaining total cannot reach the threshold. -/
theorem select_utxos_go_error_iff (target_amount fee_amount : Nat) :
    ∀ (rest sel : List ListUnspentResultEntry) (tot : Nat),
      (select_utxos_go target_amount fee_amount rest sel tot = .error .insufficientUTXOs ↔
        (rest = [] ∨ tot + sumAmounts rest < target_amount + fee_amount)) := by
  intro rest
  induction rest with
  | nil => intro sel tot; simp [select_utxos_go]
  | cons u rest ih =>
    intro sel tot
    simp only [select_utxos_go]
    split
    · rename_i hle
      constructor
      · intro h; cases h
      · intro h
        rcases h with h | h
        · cases h
        · rw [sumAmounts_cons] at h; omega
    · rename_i hlt
      rw [ih]
      rw [sumAmounts_cons]
      constructor
      · intro h
        rcases h with h | h
        · subst h; right; simp [sumAmounts_nil] at hlt ⊢; omega
        · right; omega
      · intro h
        rcases h with h | h
        · cases h
        · rcases Decidable.em (rest = []) with hr | hr
          · exact Or.inl hr
          · right; omega

theorem select_utxos_ok_sum (l : List ListUnspentResultEntry) (target_amount fee_amount : Nat)
    (out : List ListUnspentResultEntry)
    (h : select_utxos l target_amount fee_amount = .ok out) :
    target_amount + fee_amount ≤ sumAmounts out :=
  select_utxos_go_ok_sum target_amount fee_amount l [] 0 rfl out h

theorem select_utxos_error_iff (l : List ListUnspentResultEntry)
    (target_amount fee_amount : Nat) :
    select_utxos l target_amount fee_amount = .error .insufficientUTXOs ↔
      (l = [] ∨ sumAmounts l < target_amount + fee_amount) := by
  have := select_utxos_go_error_iff target_amount fee_amount l [] 0
  simpa [select_utxos] using this

theorem sumAmounts_mergeSort (l : List ListUnspentResultEntry)
    (le : ListUnspentResultEntry → ListUnspentResultEntry → Bool) :
    sumAmounts (l.mergeSort le) = sumAmounts l := by
  unfold sumAmounts
  exact ((List.mergeSort_perm l le).map (fun u => u.amount)).sum_eq

theorem mergeSort_eq_nil_iff (l : List ListUnspentResultEntry)
    (le : ListUnspentResultEntry → ListUnspentResultEntry → Bool) :
    l.mergeSort le = [] ↔ l = [] := by
  constructor
  · intro h
    have := (List.mergeSort_perm l le).length_eq
    rw [h] at this
    exact List.length_eq_zero.mp this.symm
  · intro h
    subst h
    simp

/-! ## Branch-and-bound invariants -/

/-- Well-formedness of the BFS queue: every queued state is a duplicate-free
partial selection drawn from the candidate list, paired with its exact total. -/
def QueueWF (utxos : List ListUnspentResultEntry)
    (queue : List (List ListUnspentResultEntry × Nat)) : Prop :=
  ∀ p ∈ queue, p.1.Nodup ∧ (∀ u ∈ p.1, u ∈ utxos) ∧ p.2 = sumAmounts p.1

/-- Well-formedness of the recorded best solution: either nothing has been
recorded and the best change is still the `u64::MAX` sentinel, or the best is
a well-formed selection meeting the threshold whose change is recorded. -/
def BestWF (utxos : List ListUnspentResultEntry) (threshold : Nat) :
    Option (List ListUnspentResultEntry) → Nat → Prop
  | none, bc => bc = u64Max
  | some b, bc => b.Nodup ∧ (∀ u ∈ b, u ∈ utxos) ∧ threshold ≤ sumAmounts b ∧
      bc = sumAmounts b - threshold

/-- Expanding a well-formed state only enqueues well-formed states. -/
theorem QueueWF_pushed (utxos sel : List ListUnspentResultEntry) (total : Nat)
    (hnd : sel.Nodup) (hsub : ∀ u ∈ sel, u ∈ utxos) (htot : total = sumAmounts sel) :
    QueueWF utxos ((utxos.filter (fun u => decide (u ∉ sel))).map
      (fun u => (sel ++ [u], total + u.amount))) := by
  intro p hp
  obtain ⟨u, hu, hpu⟩ := List.mem_map.mp hp
  have hmf := List.mem_filter.mp hu
  have hu1 : u ∈ utxos := hmf.1
  have hu2 : u ∉ sel := by simpa using hmf.2
  subst hpu
  refine ⟨?_, ?_, ?_⟩
  · exact List.Nodup.append hnd (List.nodup_singleton u)
      (List.disjoint_singleton.mpr hu2)
  · intro x hx
    rcases List.mem_append.mp hx with h | h
    · exact hsub x h
    · rw [List.mem_singleton.mp h]; exact hu1
  · simp [sumAmounts_append_singleton, htot]

/-- Unfolding equation for the empty queue. -/
theorem bnbLoop_nil (utxos : List ListUnspentResultEntry) (threshold : Nat)
    (best : Option (List ListUnspentResultEntry)) (bc : Nat) :
    bnbLoop utxos threshold [] best bc = best := by
  rw [bnbLoop]

/-- Unfolding equation: the popped state meets the threshold and improves on
the best change, so it is recorded. -/
theorem bnbLoop_cons_record (utxos : List ListUnspentResultEntry) (threshold : Nat)
    (sel : List ListUnspentResultEntry) (total : Nat)
    (rest : List (List ListUnspentResultEntry × Nat))
    (best : Option (List ListUnspentResultEntry)) (bc : Nat)
    (h1 : threshold ≤ total) (h2 : total - threshold < bc) :
    bnbLoop utxos threshold ((sel, total) :: rest) best bc =
      bnbLoop utxos threshold rest (some sel) (total - threshold) := by
  rw [bnbLoop]
  simp only [if_pos h1, if_pos h2]

/-- Unfolding equation: the popped state meets the threshold but does not
improve on the best change, so it is dropped. -/
theorem bnbLoop_cons_keep (utxos : List ListUnspentResultEntry) (threshold : Nat)
    (sel : List ListUnspentResultEntry) (total : Nat)
    (rest : List (List ListUnspentResultEntry × Nat))
    (best : Option (List ListUnspentResultEntry)) (bc : Nat)
    (h1 : threshold ≤ total) (h2 : ¬ total - threshold < bc) :
    bnbLoop utxos threshold ((sel, total) :: rest) best bc =
      bnbLoop utxos threshold rest best bc := by
  rw [bnbLoop]
  simp only [if_pos h1, if_neg h2]

/-- Unfolding equation: the popped state is below the threshold, so its
extensions are enqueued. -/
theorem bnbLoop_cons_expand (utxos : List ListUnspentResultEntry) (threshold : Nat)
    (sel : List ListUnspentResultEntry) (total : Nat)
    (rest : List (List ListUnspentResultEntry × Nat))
    (best : Option (List ListUnspentResultEntry)) (bc : Nat)
    (h1 : ¬ threshold ≤ total) :
    bnbLoop utxos threshold ((sel, total) :: rest) best bc =
      bnbLoop utxos threshold
        (rest ++ (utxos.filter (fun u => decide (u ∉ sel))).map
          (fun u => (sel ++ [u], total + u.amount)))
        best bc := by
  rw [bnbLoop]
  simp only [if_neg h1]

/-- Soundness of the BFS loop: under the invariants, any returned selection is
duplicate-free, drawn from the candidates, and meets the threshold. -/
theorem bnbLoop_sound (utxos : List ListUnspentResultEntry) (threshold : Nat)
    (queue : List (List ListUnspentResultEntry × Nat))
    (best : Option (List ListUnspentResultEntry)) (bc : Nat) :
    QueueWF utxos queue → BestWF utxos threshold best bc →
    ∀ r, bnbLoop utxos threshold queue best bc = some r →
      r.Nodup ∧ (∀ u ∈ r, u ∈ utxos) ∧ threshold ≤ sumAmounts r := by
  induction queue, best, bc using bnbLoop.induct utxos threshold with
  | case1 best bc =>
    intro _ hbest r hr
    rw [bnbLoop_nil] at hr
    cases best with
    | none => cases hr
    | some b =>
      cases hr
      exact ⟨hbest.1, hbest.2.1, hbest.2.2.1⟩
  | case2 current_selection current_total rest best bc h1 chg h2 ih =>
    intro hq hbest r hr
    have hhead := hq (current_selection, current_total) (List.mem_cons_self _ _)
    rw [bnbLoop_cons_record utxos threshold _ _ _ _ _ h1 h2] at hr
    refine ih (fun p hp => hq p (List.mem_cons_of_mem _ hp)) ?_ r hr
    refine ⟨hhead.1, hhead.2.1, ?_, ?_⟩
    · rw [← hhead.2.2]; exact h1
    · rw [← hhead.2.2]
  | case3 current_selection current_total rest best bc h1 chg h2 ih =>
    intro hq hbest r hr
    rw [bnbLoop_cons_keep utxos threshold _ _ _ _ _ h1 h2] at hr
    exact ih (fun p hp => hq p (List.mem_cons_of_mem _ hp)) hbest r hr
  | case4 current_selection current_total rest best bc h1 ih =>
    intro hq hbest r hr
    have hhead := hq (current_selection, current_total) (List.mem_cons_self _ _)
    rw [bnbLoop_cons_expand utxos threshold _ _ _ _ _ h1] at hr
    refine ih ?_ hbest r hr
    intro p hp
    rcases List.mem_append.mp hp with h | h
    · exact hq p (List.mem_cons_of_mem _ h)
    · exact QueueWF_pushed utxos current_selection current_total
        hhead.1 hhead.2.1 hhead.2.2 p h

/-- Optimality/progress of the BFS loop: if a well-formed combination `S`
meets the threshold and is still reachable (some queued partial selection is
contained in it) — or the recorded best change already beats `S`'s change —
then the loop returns a solution whose change is at most `S`'s change. -/
theorem bnbLoop_opt (utxos : List ListUnspentResultEntry) (threshold : Nat)
    (queue : List (List ListUnspentResultEntry × Nat))
    (best : Option (List ListUnspentResultEntry)) (bc : Nat) :
    QueueWF utxos queue → BestWF utxos threshold best bc →
    ∀ S : List ListUnspentResultEntry, S.Nodup → (∀ u ∈ S, u ∈ utxos) →
      threshold ≤ sumAmounts S → sumAmounts S - threshold < u64Max →
      ((∃ p ∈ queue, ∀ u ∈ p.1, u ∈ S) ∨ bc ≤ sumAmounts S - threshold) →
      ∃ r, bnbLoop utxos threshold queue best bc = some r ∧
        sumAmounts r - threshold ≤ sumAmounts S - threshold := by
  induction queue, best, bc using bnbLoop.induct utxos threshold with
  | case1 best bc =>
    intro _ hbest S _ _ _ hSlt hcov
    rw [bnbLoop_nil]
    rcases hcov with ⟨p, hp, _⟩ | hbc
    · cases hp
    · cases best with
      | none =>
        exfalso
        rw [hbest] at hbc
        omega
      | some b =>
        exact ⟨b, rfl, by rw [← hbest.2.2.2]; exact hbc⟩
  | case2 sel total rest best bc h1 chg h2 ih =>
    intro hq hbest S hSnd hSsub hSge hSlt hcov
    have hchg : chg = total - threshold := rfl
    have hhead := hq (sel, total) (List.mem_cons_self _ _)
    rw [bnbLoop_cons_record _ _ _ _ _ _ _ h1 h2]
    have hbw : BestWF utxos threshold (some sel) (total - threshold) :=
      ⟨hhead.1, hhead.2.1, by rw [← hhead.2.2]; exact h1, by rw [← hhead.2.2]⟩
    apply ih (fun p hp => hq p (List.mem_cons_of_mem _ hp)) hbw S hSnd hSsub hSge hSlt
    rcases hcov with ⟨p, hp, hpS⟩ | hbc
    · rcases List.mem_cons.mp hp with rfl | hp'
      · right
        have hsle : sumAmounts sel ≤ sumAmounts S := sumAmounts_le_of_subset hhead.1 hpS
        have htot : total = sumAmounts sel := hhead.2.2
        omega
      · exact Or.inl ⟨p, hp', hpS⟩
    · right
      omega
  | case3 sel total rest best bc h1 chg h2 ih =>
    intro hq hbest S hSnd hSsub hSge hSlt hcov
    have hchg : chg = total - threshold := rfl
    have hhead := hq (sel, total) (List.mem_cons_self _ _)
    rw [bnbLoop_cons_keep _ _ _ _ _ _ _ h1 h2]
    apply ih (fun p hp => hq p (List.mem_cons_of_mem _ hp)) hbest S hSnd hSsub hSge hSlt
    rcases hcov with ⟨p, hp, hpS⟩ | hbc
    · rcases List.mem_cons.mp hp with rfl | hp'
      · right
        have hsle : sumAmounts sel ≤ sumAmounts S := sumAmounts_le_of_subset hhead.1 hpS
        have htot : total = sumAmounts sel := hhead.2.2
        omega
      · exact Or.inl ⟨p, hp', hpS⟩
    · right
      omega
  | case4 sel total rest best bc h1 ih =>
    intro hq hbest S hSnd hSsub hSge hSlt hcov
    have hhead := hq (sel, total) (List.mem_cons_self _ _)
    rw [bnbLoop_cons_expand _ _ _ _ _ _ _ h1]
    have hq' : QueueWF utxos (rest ++ (utxos.filter (fun u => decide (u ∉ sel))).map
        (fun u => (sel ++ [u], total + u.amount))) := by
      intro p hp
      rcases List.mem_append.mp hp with h | h
      · exact hq p (List.mem_cons_of_mem _ h)
      · exact QueueWF_pushed utxos sel total hhead.1 hhead.2.1 hhead.2.2 p h
    apply ih hq' hbest S hSnd hSsub hSge hSlt
    rcases hcov with ⟨p, hp, hpS⟩ | hbc
    · rcases List.mem_cons.mp hp with rfl | hp'
      · -- the head state is strictly below the threshold; pick a fresh output of S
        have hex : ∃ u ∈ S, u ∉ sel := by
          by_contra hno
          push_neg at hno
          have hle : sumAmounts S ≤ sumAmounts sel := sumAmounts_le_of_subset hSnd hno
          have htot : total = sumAmounts sel := hhead.2.2
          omega
        obtain ⟨u, huS, hunsel⟩ := hex
        left
        refine ⟨(sel ++ [u], total + u.amount), ?_, ?_⟩
        · refine List.mem_append.mpr (Or.inr ?_)
          exact List.mem_map.mpr ⟨u,
            List.mem_filter.mpr ⟨hSsub u huS, by simpa using hunsel⟩, rfl⟩
        · intro x hx
          rcases List.mem_append.mp hx with h | h
          · exact hpS x h
          · rw [List.mem_singleton.mp h]; exact huS
      · exact Or.inl ⟨p, List.mem_append.mpr (Or.inl hp'), hpS⟩
    · exact Or.inr hbc

/-- Full characterization of `select_utxos_branch_and_bound` on inputs whose
total amount stays below the `u64::MAX` sentinel: a returned selection is a
duplicate-free sub-collection of the candidates that meets the threshold with
globally minimal change, and `None` is returned exactly when no duplicate-free
sub-collection meets the threshold. -/
theorem bnb_characterization (utxos : List ListUnspentResultEntry)
    (target_amount fee_amount : Nat)
    (hbound : sumAmounts utxos < u64Max) :
    (∀ r, select_utxos_branch_and_bound utxos target_amount fee_amount = some r →
       r.Nodup ∧ (∀ u ∈ r, u ∈ utxos) ∧
       target_amount + fee_amount ≤ sumAmounts r ∧
       (∀ S : List ListUnspentResultEntry, S.Nodup → (∀ u ∈ S, u ∈ utxos) →
          target_amount + fee_amount ≤ sumAmounts S →
          sumAmounts r - (target_amount + fee_amount) ≤
            sumAmounts S - (target_amount + fee_amount)))
  ∧ (select_utxos_branch_and_bound utxos target_amount fee_amount = none ↔
       ∀ S : List ListUnspentResultEntry, S.Nodup → (∀ u ∈ S, u ∈ utxos) →
         sumAmounts S < target_amount + fee_amount) := by
  have hq0 : QueueWF utxos [([], 0)] := by
    intro p hp
    rw [List.mem_singleton.mp hp]
    refine ⟨List.nodup_nil, ?_, rfl⟩
    intro u hu
    simp at hu
  have hb0 : BestWF utxos (target_amount + fee_amount) none u64Max := rfl
  constructor
  · intro r hr
    have hsound := bnbLoop_sound utxos (target_amount + fee_amount) [([], 0)] none u64Max
      hq0 hb0 r hr
    refine ⟨hsound.1, hsound.2.1, hsound.2.2, ?_⟩
    intro S hSnd hSsub hSge
    have hSle : sumAmounts S ≤ sumAmounts utxos := sumAmounts_le_of_subset hSnd hSsub
    have hSlt : sumAmounts S - (target_amount + fee_amount) < u64Max := by omega
    obtain ⟨r', hr', hle⟩ := bnbLoop_opt utxos (target_amount + fee_amount) [([], 0)]
      none u64Max hq0 hb0 S hSnd hSsub hSge hSlt
      (Or.inl ⟨([], 0), List.mem_singleton_self _, by intro u hu; simp at hu⟩)
    have hr2 : bnbLoop utxos (target_amount + fee_amount) [([], 0)] none u64Max = some r := hr
    rw [hr2] at hr'
    cases hr'
    exact hle
  · constructor
    · intro hnone S hSnd hSsub
      by_contra hge
      push_neg at hge
      have hSle : sumAmounts S ≤ sumAmounts utxos := sumAmounts_le_of_subset hSnd hSsub
      have hSlt : sumAmounts S - (target_amount + fee_amount) < u64Max := by omega
      obtain ⟨r', hr', _⟩ := bnbLoop_opt utxos (target_amount + fee_amount) [([], 0)]
        none u64Max hq0 hb0 S hSnd hSsub hge hSlt
        (Or.inl ⟨([], 0), List.mem_singleton_self _, by intro u hu; simp at hu⟩)
      have hn2 : bnbLoop utxos (target_amount + fee_amount) [([], 0)] none u64Max = none := hnone
      rw [hn2] at hr'
      cases hr'
    · intro hall
      cases hres : select_utxos_branch_and_bound utxos target_amount fee_amount with
      | none => rfl
      | some r =>
        exfalso
        have hsound := bnbLoop_sound utxos (target_amount + fee_amount) [([], 0)] none u64Max
          hq0 hb0 r hres
        have := hall r hsound.1 hsound.2.1
        omega

/-! ## Claim theorems: coin selection (C1, C2, C10) -/

/-- **C1 counterexample**: the claim requires that an `InsufficientUTXOs`
result means no subset in the strategy's search space reaches
`target + fee`, and explicitly requires this for the empty candidate list
with `target + fee = 0`, where the empty subset reaches the bound.  The code
falsifies this: FIFO on the empty list with target = fee = 0 returns
`InsufficientUTXOs` even though the empty subset sums to `0 ≥ 0 + 0`. -/
theorem strat_handler_fifo_zero_counterexample :
    strat_handler [] 0 0 .fifo = .error .insufficientUTXOs ∧
      0 + 0 ≤ sumAmounts [] := by
  exact ⟨rfl, Nat.le_refl 0⟩

/-- **C1** (amended): for every candidate list with total amount below
`u64::MAX`, target and fee: (a) if `strat_handler` returns a selection, its
sum is ≥ `target + fee` (all four strategies); (b) if it returns
`InsufficientUTXOs` then for BranchAndBound no duplicate-free sub-collection
of the candidates reaches `target + fee`, while for FIFO/LargestFirst/
SmallestFirst the candidate list is empty or its entire sum is below
`target + fee` (so no nonempty subset reaches the bound; the empty-list,
zero-threshold case fails even though the empty subset reaches the bound). -/
theorem strat_handler_selection_spec (utxos : List ListUnspentResultEntry)
    (target_amount fee_amount : Nat) (strategy : UTXOStrategy)
    (hbound : sumAmounts utxos < u64Max) :
    (∀ sel, strat_handler utxos target_amount fee_amount strategy = .ok sel →
        target_amount + fee_amount ≤ sumAmounts sel) ∧
    (strat_handler utxos target_amount fee_amount strategy = .error .insufficientUTXOs →
      match strategy with
      | .branchAndBound =>
          ∀ S : List ListUnspentResultEntry, S.Nodup → (∀ u ∈ S, u ∈ utxos) →
            sumAmounts S < target_amount + fee_amount
      | _ => utxos = [] ∨ sumAmounts utxos < target_amount + fee_amount) := by
  cases strategy with
  | branchAndBound =>
    constructor
    · intro sel h
      simp only [strat_handler] at h
      cases hres : select_utxos_branch_and_bound utxos target_amount fee_amount with
      | none => rw [hres] at h; cases h
      | some r =>
        rw [hres] at h
        injection h with h2
        subst h2
        exact ((bnb_characterization utxos target_amount fee_amount hbound).1 r hres).2.2.1
    · intro h S hSnd hSsub
      simp only [strat_handler] at h
      cases hres : select_utxos_branch_and_bound utxos target_amount fee_amount with
      | some r => rw [hres] at h; cases h
      | none =>
        exact (bnb_characterization utxos target_amount fee_amount hbound).2.mp hres S hSnd hSsub
  | fifo =>
    constructor
    · intro sel h
      exact select_utxos_ok_sum utxos target_amount fee_amount sel h
    · intro h
      exact (select_utxos_error_iff utxos target_amount fee_amount).mp h
  | largestFirst =>
    constructor
    · intro sel h
      exact select_utxos_ok_sum _ target_amount fee_amount sel h
    · intro h
      have := (select_utxos_error_iff
        (utxos.mergeSort (fun a b => b.amount ≤ a.amount)) target_amount fee_amount).mp h
      rcases this with h1 | h1
      · exact Or.inl ((mergeSort_eq_nil_iff utxos _).mp h1)
      · rw [sumAmounts_mergeSort] at h1
        exact Or.inr h1
  | smallestFirst =>
    constructor
    · intro sel h
      exact select_utxos_ok_sum _ target_amount fee_amount sel h
    · intro h
      have := (select_utxos_error_iff
        (utxos.mergeSort (fun a b => a.amount ≤ b.amount)) target_amount fee_amount).mp h
      rcases this with h1 | h1
      · exact Or.inl ((mergeSort_eq_nil_iff utxos _).mp h1)
      · rw [sumAmounts_mergeSort] at h1
        exact Or.inr h1

/-- **C1 witness**: the amended theorem applied at a concrete input. -/
theorem strat_handler_selection_spec_witness :
    sumAmounts [] < u64Max ∧
    ((∀ sel, strat_handler [] 5 0 .fifo = .ok sel → 5 + 0 ≤ sumAmounts sel) ∧
     (strat_handler [] 5 0 .fifo = .error .insufficientUTXOs →
        ([] : List ListUnspentResultEntry) = [] ∨ sumAmounts [] < 5 + 0)) :=
  ⟨by decide, strat_handler_selection_spec [] 5 0 .fifo (by decide)⟩

/-- **C2**: for every candidate list with pairwise-distinct entries and total
amount below `u64::MAX`: a BranchAndBound selection is a duplicate-free
sub-collection meeting `target + fee` whose leftover change is the global
minimum over all duplicate-free sub-collections meeting the threshold; and it
returns `InsufficientUTXOs` (i.e. the search yields `None`) exactly when no
such sub-collection meets the threshold. -/
theorem bnb_min_change (utxos : List ListUnspentResultEntry)
    (target_amount fee_amount : Nat)
    (hnd : utxos.Nodup) (hbound : sumAmounts utxos < u64Max) :
    (∀ r, strat_handler utxos target_amount fee_amount .branchAndBound = .ok r →
       r.Nodup ∧ (∀ u ∈ r, u ∈ utxos) ∧
       target_amount + fee_amount ≤ sumAmounts r ∧
       ∀ S : List ListUnspentResultEntry, S.Nodup → (∀ u ∈ S, u ∈ utxos) →
         target_amount + fee_amount ≤ sumAmounts S →
         sumAmounts r - (target_amount + fee_amount) ≤
           sumAmounts S - (target_amount + fee_amount)) ∧
    (strat_handler utxos target_amount fee_amount .branchAndBound =
        .error .insufficientUTXOs ↔
      ∀ S : List ListUnspentResultEntry, S.Nodup → (∀ u ∈ S, u ∈ utxos) →
        sumAmounts S < target_amount + fee_amount) := by
  constructor
  · intro r h
    simp only [strat_handler] at h
    cases hres : select_utxos_branch_and_bound utxos target_amount fee_amount with
    | none => rw [hres] at h; cases h
    | some r' =>
      rw [hres] at h
      injection h with h2
      subst h2
      exact (bnb_characterization utxos target_amount fee_amount hbound).1 r' hres
  · constructor
    · intro h
      simp only [strat_handler] at h
      cases hres : select_utxos_branch_and_bound utxos target_amount fee_amount with
      | some r' => rw [hres] at h; cases h
      | none =>
        exact (bnb_characterization utxos target_amount fee_amount hbound).2.mp hres
    · intro hall
      simp only [strat_handler]
      cases hres : select_utxos_branch_and_bound utxos target_amount fee_amount with
      | none => rfl
      | some r' =>
        exfalso
        have := (bnb_characterization utxos target_amount fee_amount hbound).1 r' hres
        have hlt := hall r' this.1 this.2.1
        have hge := this.2.2.1
        omega

/-- **C2 witness**: the theorem applied at the spec's §8 test vector. -/
theorem bnb_min_change_witness :
    ([⟨1, 0, 5000, 1⟩, ⟨2, 0, 3000, 1⟩, ⟨3, 0, 2000, 1⟩,
      ⟨4, 0, 1000, 1⟩] : List ListUnspentResultEntry).Nodup ∧
    sumAmounts [⟨1, 0, 5000, 1⟩, ⟨2, 0, 3000, 1⟩, ⟨3, 0, 2000, 1⟩, ⟨4, 0, 1000, 1⟩] <
      u64Max ∧
    ((∀ r, strat_handler [⟨1, 0, 5000, 1⟩, ⟨2, 0, 3000, 1⟩, ⟨3, 0, 2000, 1⟩,
          ⟨4, 0, 1000, 1⟩] 4000 200 .branchAndBound = .ok r →
       r.Nodup ∧ (∀ u ∈ r, u ∈ ([⟨1, 0, 5000, 1⟩, ⟨2, 0, 3000, 1⟩, ⟨3, 0, 2000, 1⟩,
          ⟨4, 0, 1000, 1⟩] : List ListUnspentResultEntry)) ∧
       4000 + 200 ≤ sumAmounts r ∧
       ∀ S : List ListUnspentResultEntry, S.Nodup →
         (∀ u ∈ S, u ∈ ([⟨1, 0, 5000, 1⟩, ⟨2, 0, 3000, 1⟩, ⟨3, 0, 2000, 1⟩,
            ⟨4, 0, 1000, 1⟩] : List ListUnspentResultEntry)) →
         4000 + 200 ≤ sumAmounts S →
         sumAmounts r - (4000 + 200) ≤ sumAmounts S - (4000 + 200)) ∧
     (strat_handler [⟨1, 0, 5000, 1⟩, ⟨2, 0, 3000, 1⟩, ⟨3, 0, 2000, 1⟩,
          ⟨4, 0, 1000, 1⟩] 4000 200 .branchAndBound = .error .insufficientUTXOs ↔
       ∀ S : List ListUnspentResultEntry, S.Nodup →
         (∀ u ∈ S, u ∈ ([⟨1, 0, 5000, 1⟩, ⟨2, 0, 3000, 1⟩, ⟨3, 0, 2000, 1⟩,
            ⟨4, 0, 1000, 1⟩] : List ListUnspentResultEntry)) →
         sumAmounts S < 4000 + 200)) :=
  ⟨by decide, by decide,
    bnb_min_change [⟨1, 0, 5000, 1⟩, ⟨2, 0, 3000, 1⟩, ⟨3, 0, 2000, 1⟩, ⟨4, 0, 1000, 1⟩]
      4000 200 (by decide) (by decide)⟩

/-- **C10**: on the empty candidate list, FIFO/LargestFirst/SmallestFirst
always fail with `InsufficientUTXOs`, for every target and fee (including
zero); whereas for every candidate list and every target and fee summing to
zero, BranchAndBound succeeds and returns the empty selection — the
strategies disagree on the zero-target edge case at `strat_handler`. -/
theorem zero_target_edge_case :
    (∀ target_amount fee_amount : Nat,
       strat_handler [] target_amount fee_amount .fifo = .error .insufficientUTXOs ∧
       strat_handler [] target_amount fee_amount .largestFirst =
         .error .insufficientUTXOs ∧
       strat_handler [] target_amount fee_amount .smallestFirst =
         .error .insufficientUTXOs) ∧
    (∀ (utxos : List ListUnspentResultEntry) (target_amount fee_amount : Nat),
       target_amount + fee_amount = 0 →
       strat_handler utxos target_amount fee_amount .branchAndBound = .ok []) := by
  constructor
  · intro target_amount fee_amount
    refine ⟨rfl, ?_, ?_⟩
    · simp only [strat_handler, select_utxos_largest_first]
      rw [(mergeSort_eq_nil_iff [] _).mpr rfl]
      rfl
    · simp only [strat_handler, select_utxos_smallest_first]
      rw [(mergeSort_eq_nil_iff [] _).mpr rfl]
      rfl
  · intro utxos target_amount fee_amount h
    have hsel : select_utxos_branch_and_bound utxos target_amount fee_amount = some [] := by
      unfold select_utxos_branch_and_bound
      rw [h]
      rw [bnbLoop_cons_record utxos 0 [] 0 [] none u64Max (Nat.le_refl 0) (by decide)]
      exact bnbLoop_nil utxos 0 (some []) (0 - 0)
    simp only [strat_handler, hsel]

/-- **C10 witness**: the theorem applied at concrete inputs, discharging the
`target + fee = 0` hypothesis. -/
theorem zero_target_edge_case_witness :
    (strat_handler [] 7 3 .fifo = .error .insufficientUTXOs ∧
     strat_handler [] 7 3 .largestFirst = .error .insufficientUTXOs ∧
     strat_handler [] 7 3 .smallestFirst = .error .insufficientUTXOs) ∧
    ((0 : Nat) + 0 = 0 ∧
     strat_handler [⟨1, 1, 42, 0⟩] 0 0 .branchAndBound = .ok []) :=
  ⟨zero_target_edge_case.1 7 3, rfl, zero_target_edge_case.2 [⟨1, 1, 42, 0⟩] 0 0 rfl⟩

/-! ## Wallet transaction builders (`crates/wallet/src/builder.rs`)

Bitcoin script/crypto values are modelled symbolically: keys, hashes,
signatures and control blocks are free constructors carrying exactly the data
the Rust library derives them from.  The claims about `build_commit` and
`build_reveal` are structural (which amounts, which outpoints, which data is
signed with which key, witness element order), so free constructors settle
them faithfully. -/

/-- `bitcoincore_rpc::json::AddressType`. -/
inductive AddressType where
  | legacy
  | p2shSegwit
  | bech32
  | bech32m
deriving DecidableEq

/-- Symbolic x-only public key. -/
structure XOnlyPublicKey where
  key : Nat
deriving DecidableEq

/-- Symbolic taproot merkle node hash. -/
structure TapNodeHash where
  hash : Nat
deriving DecidableEq

/-- Symbolic `UntweakedKeypair` (the ephemeral key pair; the Rust value holds
the secret key, from which the x-only public key is derived). -/
structure UntweakedKeypair where
  secret : Nat
deriving DecidableEq

/-- `bitcoin::taproot::LeafVersion` — the code only ever uses `TapScript`. -/
inductive LeafVersion where
  | tapScript
deriving DecidableEq

/-- `bitcoin::TapSighashType` — the code only ever uses `Default`. -/
inductive TapSighashType where
  | default
deriving DecidableEq

/-- One item of a built script: an opcode or a data push
(`bitcoin::script::Builder` pushes). -/
inductive ScriptItem where
  | op (code : Nat)
  | push (data : List Nat)
deriving DecidableEq

/-- A built script is the sequence of its items. -/
abbrev ScriptBuf := List ScriptItem

/-- Script pubkeys as used by the builders: either a P2TR output derived from
an internal key and optional merkle root (`ScriptBuf::new_p2tr`), or an
opaque external script (a collaborator-issued address). -/
inductive ScriptPubKey where
  | p2tr (internal_key : XOnlyPublicKey) (merkle_root : Option TapNodeHash)
  | ext (id : Nat)
deriving DecidableEq

/-- `ScriptBuf::new_p2tr(secp, internal_key, merkle_root)`. -/
def new_p2tr (internal_key : XOnlyPublicKey) (merkle_root : Option TapNodeHash) :
    ScriptPubKey :=
  .p2tr internal_key merkle_root

/-- `TapLeafHash::from_script(script, leaf_version)`, as a free constructor. -/
inductive TapLeafHash where
  | from_script (script : ScriptBuf) (version : LeafVersion)
deriving DecidableEq

/-- `bitcoin::taproot::TaprootSpendInfo`: internal key, merkle root, and the
set of committed leaves (the script map used by `control_block`). -/
structure TaprootSpendInfo where
  internal_key : XOnlyPublicKey
  merkle_root : Option TapNodeHash
  leaves : List (ScriptBuf × LeafVersion)
deriving DecidableEq

/-- A taproot control block, as derived by
`TaprootSpendInfo::control_block` for a committed leaf. -/
inductive ControlBlock where
  | mk (internal_key : XOnlyPublicKey) (merkle_root : Option TapNodeHash)
       (script : ScriptBuf) (version : LeafVersion)
deriving DecidableEq

/-- `TaprootSpendInfo::control_block((script, leaf_version))`: `Some` exactly
when the pair is a committed leaf. -/
def TaprootSpendInfo.control_block (si : TaprootSpendInfo)
    (p : ScriptBuf × LeafVersion) : Option ControlBlock :=
  if p ∈ si.leaves then some (.mk si.internal_key si.merkle_root p.1 p.2)
  else none

/-- `bitcoin::OutPoint`. -/
structure OutPoint where
  txid : Nat
  vout : Nat
deriving DecidableEq

/-- `bitcoin::TxOut` (value in satoshis). -/
structure TxOut where
  value : Nat
  script_pubkey : ScriptPubKey
deriving DecidableEq

/-- Sum of the values of a list of transaction outputs
(`outputs.iter().map(|o| o.value.to_sat()).sum()`). -/
def sumValues (outs : List TxOut) : Nat :=
  (outs.map (fun o => o.value)).sum

/-- The witness-free view of a transaction that a taproot sighash covers:
version, locktime, per-input outpoints and sequences, and outputs (input
witnesses are never part of the signed data). -/
structure TxData where
  version : Nat
  lock_time : Nat
  inputs : List (OutPoint × Nat)
  outputs : List TxOut
deriving DecidableEq

/-- A taproot script-path sighash, as a free constructor over the signed
data: the transaction view, the input index, the `Prevouts::All` list, the
leaf hash and the sighash type
(`SighashCache::taproot_script_spend_signature_hash`). -/
inductive SighashMessage where
  | taproot_script_spend (tx : TxData) (input_index : Nat) (prevouts : List TxOut)
      (leaf_hash : TapLeafHash) (sighash_type : TapSighashType)
deriving DecidableEq

/-- A Schnorr signature, as a free constructor over the signed message and
the key pair used (`secp.sign_schnorr(msg, key_pair)`). -/
inductive SchnorrSignature where
  | sign (msg : SighashMessage) (key_pair : UntweakedKeypair)
deriving DecidableEq

/-- `secp.sign_schnorr`. -/
def sign_schnorr (msg : SighashMessage) (key_pair : UntweakedKeypair) :
    SchnorrSignature :=
  .sign msg key_pair

/-- One element pushed onto a segwit witness stack. -/
inductive WitnessElement where
  | sig_bytes (s : SchnorrSignature)
  | script_bytes (s : ScriptBuf)
  | control_block_bytes (c : ControlBlock)
deriving DecidableEq

/-- A witness stack. -/
abbrev Witness := List WitnessElement

/-- `bitcoin::TxIn` (the `script_sig` is always `ScriptBuf::default()` in
this code and is omitted). -/
structure TxIn where
  previous_output : OutPoint
  sequence : Nat
  witness : Witness
deriving DecidableEq

/-- `bitcoin::Transaction`. -/
structure Transaction where
  version : Nat
  lock_time : Nat
  input : List TxIn
  output : List TxOut
deriving DecidableEq

/-- The witness-free view of a transaction (what a taproot sighash covers). -/
def Transaction.data (tx : Transaction) : TxData :=
  { version := tx.version, lock_time := tx.lock_time,
    inputs := tx.input.map (fun i => (i.previous_output, i.sequence)),
    outputs := tx.output }

/-- `Sequence::ENABLE_RBF_NO_LOCKTIME`. -/
def SEQUENCE_ENABLE_RBF_NO_LOCKTIME : Nat := 0xFFFFFFFD

/-- A collaborator-issued address (only its script pubkey matters here). -/
structure Address where
  script_pubkey : ScriptPubKey

/-- Modelled from the spec: the external wallet/node collaborator (§6), with
`issue_address` (`Wallet::new_address`) and the key-path signing data it puts
on inputs it controls (`sign_key_path`).  Its `Wallet::new` / RPC plumbing is
out of scope. -/
structure Wallet where
  new_address : AddressType → Address
  witness_for : Transaction → Nat → Witness

/-- Modelled from the spec: `sign_key_path(transaction) → signed_transaction`
— the collaborator "signs any inputs it controls", i.e. fills in witness
data, leaving the transaction's inputs' outpoints and sequences and its
outputs unchanged (`Wallet::sign_tx` delegates to the node's
`signrawtransactionwithwallet`). -/
def Wallet.sign_tx (w : Wallet) (tx : Transaction) : Transaction :=
  { tx with
    input := tx.input.mapIdx (fun i txin => { txin with witness := w.witness_for tx i }) }

/-- The typed failures of `builder.rs` (the Rust code uses boxed string
errors; the two `.expect` calls are modelled as distinguished failures). -/
inductive BuilderError where
  | amountOverflow
  | insufficientFunds
  | amountUnderflow
  | insufficientAmount
  | controlBlockFailure
deriving DecidableEq

/-- `u64::checked_add`. -/
def checked_add_u64 (a b : Nat) : Option Nat :=
  if a + b ≤ u64Max then some (a + b) else none

/-- `u64::checked_sub`. -/
def checked_sub_u64 (a b : Nat) : Option Nat :=
  if b ≤ a then some (a - b) else none

/-- `build_commit_transaction` from `crates/wallet/src/builder.rs` (lines
17–68): checked `amount + fee`, insufficient-funds check against the funding
output, checked change computation, then a 1-input/2-output transaction
(commitment output first, change to a fresh Bech32m address second), signed
by the wallet collaborator; returns the signed transaction and vout `0`. -/
def build_commit_transaction (wallet : Wallet) (utxo : ListUnspentResultEntry)
    (amount fee_amount : Nat) (commit_script : ScriptPubKey) :
    Except BuilderError (Transaction × Nat) :=
  match checked_add_u64 amount fee_amount with
  | none => .error .amountOverflow
  | some total_needed =>
    if utxo.amount < total_needed then .error .insufficientFunds
    else
      match checked_sub_u64 utxo.amount total_needed with
      | none => .error .amountUnderflow
      | some change_amount =>
        let tx : Transaction :=
          { version := 2, lock_time := 0,
            input := [{ previous_output := { txid := utxo.txid, vout := utxo.vout },
                        sequence := SEQUENCE_ENABLE_RBF_NO_LOCKTIME, witness := [] }],
            output := [{ value := amount, script_pubkey := commit_script },
                       { value := change_amount,
                         script_pubkey := (wallet.new_address .bech32m).script_pubkey }] }
        .ok (wallet.sign_tx tx, 0)

/-- `build_reveal_transaction` from `crates/wallet/src/builder.rs` (lines
70–166): checked `amount - fee - Σ additional outputs`; on success a change
output is prepended when the remainder is positive; the single input spends
the commit outpoint; the script-path sighash over the sole previous output is
signed with Schnorr using the untweaked key pair, and the witness is
`[signature, reveal script, control block]`. -/
def build_reveal_transaction (wallet : Wallet) (key_pair : UntweakedKeypair)
    (reveal_script : ScriptBuf) (taproot_spend_info : TaprootSpendInfo)
    (commit_outpoint : OutPoint) (amount fee_amount : Nat) (is_rune : Bool)
    (additional_outputs : List TxOut) : Except BuilderError Transaction :=
  match (checked_sub_u64 amount fee_amount).bind
      (fun amt => checked_sub_u64 amt (sumValues additional_outputs)) with
  | none => .error .insufficientAmount
  | some remaining_amount =>
    let sequence := if is_rune then SEQUENCE_ENABLE_RBF_NO_LOCKTIME
                    else SEQUENCE_ENABLE_RBF_NO_LOCKTIME
    let outputs :=
      (if 0 < remaining_amount then
        [({ value := remaining_amount,
            script_pubkey := (wallet.new_address .bech32m).script_pubkey } : TxOut)]
      else []) ++ additional_outputs
    let reveal_tx : Transaction :=
      { version := 2, lock_time := 0,
        input := [{ previous_output := commit_outpoint, sequence := sequence,
                    witness := [] }],
        output := outputs }
    let prev_tx_out : TxOut :=
      { value := amount,
        script_pubkey := new_p2tr taproot_spend_info.internal_key
          taproot_spend_info.merkle_root }
    let leaf_hash := TapLeafHash.from_script reveal_script .tapScript
    let sighash := SighashMessage.taproot_script_spend reveal_tx.data 0 [prev_tx_out]
        leaf_hash .default
    let signature := sign_schnorr sighash key_pair
    match taproot_spend_info.control_block (reveal_script, .tapScript) with
    | none => .error .controlBlockFailure
    | some cb =>
      .ok { reveal_tx with
            input := [{ previous_output := commit_outpoint, sequence := sequence,
                        witness := [.sig_bytes signature, .script_bytes reveal_script,
                                    .control_block_bytes cb] }] }

/-! ## Claim theorems: transaction builders (C3, C4, C5) -/

/-- **C3**: `build_commit_transaction` on success returns vout `0` and a
transaction whose single input spends the funding outpoint and whose two
outputs pay `amount` to the commitment script and
`input_amount − amount − fee` to a freshly issued Bech32m change address
(values are `Nat`s, so no output is negative); it fails with the
insufficient-funds error iff `amount + fee > input_amount` (within `u64`
range), and with the overflow error — never a wrap — when `amount + fee`
overflows `u64`. -/
theorem build_commit_spec (wallet : Wallet) (utxo : ListUnspentResultEntry)
    (amount fee_amount : Nat) (commit_script : ScriptPubKey) :
    (∀ tx vout,
        build_commit_transaction wallet utxo amount fee_amount commit_script =
          .ok (tx, vout) →
      vout = 0 ∧
      amount + fee_amount ≤ utxo.amount ∧
      tx.input.map (fun i => i.previous_output) = [⟨utxo.txid, utxo.vout⟩] ∧
      tx.output.map (fun o => (o.value, o.script_pubkey)) =
        [(amount, commit_script),
         (utxo.amount - (amount + fee_amount),
          (wallet.new_address .bech32m).script_pubkey)]) ∧
    (amount + fee_amount ≤ u64Max →
      (build_commit_transaction wallet utxo amount fee_amount commit_script =
          .error .insufficientFunds ↔ utxo.amount < amount + fee_amount)) ∧
    (u64Max < amount + fee_amount →
      build_commit_transaction wallet utxo amount fee_amount commit_script =
        .error .amountOverflow) := by
  refine ⟨?_, ?_, ?_⟩
  · intro tx vout h
    unfold build_commit_transaction checked_add_u64 checked_sub_u64 at h
    by_cases hof : amount + fee_amount ≤ u64Max
    · simp only [if_pos hof] at h
      by_cases hif : utxo.amount < amount + fee_amount
      · simp only [if_pos hif] at h
        cases h
      · simp only [if_neg hif] at h
        have hle : amount + fee_amount ≤ utxo.amount := Nat.le_of_not_lt hif
        simp only [if_pos hle] at h
        injection h with h2
        injection h2 with h3 h4
        subst h3
        subst h4
        exact ⟨rfl, hle, rfl, rfl⟩
    · simp only [if_neg hof] at h
      cases h
  · intro hof
    unfold build_commit_transaction checked_add_u64 checked_sub_u64
    simp only [if_pos hof]
    by_cases hif : utxo.amount < amount + fee_amount
    · simp [hif]
    · have hle : amount + fee_amount ≤ utxo.amount := Nat.le_of_not_lt hif
      simp [hif, hle]
  · intro hof
    unfold build_commit_transaction checked_add_u64
    simp [Nat.not_le.mpr hof]

/-- A concrete collaborator wallet for witnesses: every issued address has an
opaque script, and key-path signing attaches empty witness data. -/
def cWallet : Wallet :=
  { new_address := fun _ => { script_pubkey := .ext 0 },
    witness_for := fun _ _ => [] }

/-- **C3 witness**: the theorem applied at a concrete input, discharging the
`u64`-range hypothesis. -/
theorem build_commit_spec_witness :
    40000 + 20000 ≤ u64Max ∧
    (build_commit_transaction cWallet ⟨9, 1, 100000, 1⟩ 40000 20000 (.ext 5) =
        .error .insufficientFunds ↔ (100000 : Nat) < 40000 + 20000) :=
  ⟨by decide,
    (build_commit_spec cWallet ⟨9, 1, 100000, 1⟩ 40000 20000 (.ext 5)).2.1 (by decide)⟩

/-- **C4**: every reveal transaction built by `build_reveal_transaction` has
a single input whose witness is exactly
`[signature, leaf script, control block]` in that order, where the signature
is a Schnorr signature by the *untweaked* ephemeral key pair over the
taproot script-path sighash computed at input 0 over the single previous
output (the commit output, `P2TR(internal key, merkle root)`) with the
default sighash type and the `TapScript` leaf version, and the control block
is the one derived from the taproot spend info for that same leaf script. -/
theorem build_reveal_witness_structure (wallet : Wallet) (key_pair : UntweakedKeypair)
    (reveal_script : ScriptBuf) (taproot_spend_info : TaprootSpendInfo)
    (commit_outpoint : OutPoint) (amount fee_amount : Nat) (is_rune : Bool)
    (additional_outputs : List TxOut) (tx : Transaction)
    (h : build_reveal_transaction wallet key_pair reveal_script taproot_spend_info
        commit_outpoint amount fee_amount is_rune additional_outputs = .ok tx) :
    ∃ cb, taproot_spend_info.control_block (reveal_script, .tapScript) = some cb ∧
      tx.input.map (fun i => i.witness) =
        [[.sig_bytes (sign_schnorr
            (SighashMessage.taproot_script_spend tx.data 0
              [{ value := amount,
                 script_pubkey := new_p2tr taproot_spend_info.internal_key
                   taproot_spend_info.merkle_root }]
              (TapLeafHash.from_script reveal_script .tapScript) .default) key_pair),
          .script_bytes reveal_script,
          .control_block_bytes cb]] := by
  unfold build_reveal_transaction at h
  cases hsub : (checked_sub_u64 amount fee_amount).bind
      (fun amt => checked_sub_u64 amt (sumValues additional_outputs)) with
  | none => rw [hsub] at h; cases h
  | some remaining_amount =>
    rw [hsub] at h
    cases hcb : taproot_spend_info.control_block (reveal_script, .tapScript) with
    | none => simp only [hcb] at h; cases h
    | some cb =>
      simp only [hcb] at h
      refine ⟨cb, rfl, ?_⟩
      cases h
      cases is_rune <;> rfl

/-- Concrete leaf script for the reveal witnesses. -/
def cRevealScript : ScriptBuf := [ScriptItem.op 81]

/-- Concrete taproot spend info committing to `cRevealScript`. -/
def cSpendInfo : TaprootSpendInfo :=
  { internal_key := ⟨7⟩, merkle_root := some ⟨8⟩,
    leaves := [(cRevealScript, .tapScript)] }

/-- The transaction `build_reveal_transaction` produces for the concrete
witness inputs (amount 50000, fee 20000, no additional outputs). -/
def cRevealTx : Transaction :=
  { version := 2, lock_time := 0,
    input := [{ previous_output := ⟨11, 0⟩, sequence := SEQUENCE_ENABLE_RBF_NO_LOCKTIME,
                witness :=
                  [.sig_bytes (sign_schnorr
                     (SighashMessage.taproot_script_spend
                       { version := 2, lock_time := 0,
                         inputs := [(⟨11, 0⟩, SEQUENCE_ENABLE_RBF_NO_LOCKTIME)],
                         outputs := [{ value := 30000, script_pubkey := .ext 0 }] }
                       0 [{ value := 50000, script_pubkey := .p2tr ⟨7⟩ (some ⟨8⟩) }]
                       (.from_script cRevealScript .tapScript) .default) ⟨3⟩),
                   .script_bytes cRevealScript,
                   .control_block_bytes (.mk ⟨7⟩ (some ⟨8⟩) cRevealScript .tapScript)] }],
    output := [{ value := 30000, script_pubkey := .ext 0 }] }

/-- **C4 witness**: the theorem applied at a concrete reveal build. -/
theorem build_reveal_witness_structure_witness :
    ∃ cb, cSpendInfo.control_block (cRevealScript, .tapScript) = some cb ∧
      cRevealTx.input.map (fun i => i.witness) =
        [[.sig_bytes (sign_schnorr
            (SighashMessage.taproot_script_spend cRevealTx.data 0
              [{ value := 50000,
                 script_pubkey := new_p2tr cSpendInfo.internal_key
                   cSpendInfo.merkle_root }]
              (TapLeafHash.from_script cRevealScript .tapScript) .default) ⟨3⟩),
          .script_bytes cRevealScript,
          .control_block_bytes cb]] :=
  build_reveal_witness_structure cWallet ⟨3⟩ cRevealScript cSpendInfo ⟨11, 0⟩
    50000 20000 false [] cRevealTx rfl

/-- **C5 counterexample**: the claim says a successful reveal transaction's
output list equals the caller-supplied output list.  At a concrete input with
caller-supplied outputs `[]` and positive remainder (amount 50000, fee
20000), the built transaction's output list is a nonempty change output —
not the caller-supplied empty list. -/
theorem build_reveal_outputs_counterexample :
    build_reveal_transaction cWallet ⟨3⟩ cRevealScript cSpendInfo ⟨11, 0⟩
        50000 20000 false [] = .ok cRevealTx ∧
      cRevealTx.output ≠ [] :=
  ⟨rfl, by decide⟩

/-- The chained checked subtraction of `build_reveal_transaction` fails
exactly when `fee + Σ outputs > amount`. -/
theorem checked_sub_chain_none_iff (a f t : Nat) :
    ((checked_sub_u64 a f).bind (fun amt => checked_sub_u64 amt t)) = none ↔
      a < f + t := by
  unfold checked_sub_u64
  by_cases h1 : f ≤ a
  · by_cases h2 : t ≤ a - f
    · simp [h1, h2]
      omega
    · simp [h1, h2]
      omega
  · simp [h1]
    omega

/-- The chained checked subtraction of `build_reveal_transaction` succeeds
exactly on `a - f - t` when `f + t ≤ a`. -/
theorem checked_sub_chain_some_iff (a f t r : Nat) :
    ((checked_sub_u64 a f).bind (fun amt => checked_sub_u64 amt t)) = some r ↔
      (f + t ≤ a ∧ r = a - f - t) := by
  unfold checked_sub_u64
  by_cases h1 : f ≤ a
  · by_cases h2 : t ≤ a - f
    · simp [h1, h2]
      omega
    · simp [h1, h2]
      omega
  · simp [h1]
    omega

/-- **C5** (amended): `build_reveal_transaction` fails with the
insufficient-amount error iff `fee + Σ caller outputs > amount` (checked
subtraction); on success the transaction has exactly one input spending the
commit outpoint, and its output list is the caller-supplied list prefixed by
a change output paying `amount − fee − Σ caller outputs` to a freshly issued
address whenever that remainder is positive (and equals the caller-supplied
list exactly when the remainder is zero). -/
theorem build_reveal_outputs_spec (wallet : Wallet) (key_pair : UntweakedKeypair)
    (reveal_script : ScriptBuf) (taproot_spend_info : TaprootSpendInfo)
    (commit_outpoint : OutPoint) (amount fee_amount : Nat) (is_rune : Bool)
    (additional_outputs : List TxOut) :
    (build_reveal_transaction wallet key_pair reveal_script taproot_spend_info
        commit_outpoint amount fee_amount is_rune additional_outputs =
          .error .insufficientAmount ↔
      amount < fee_amount + sumValues additional_outputs) ∧
    (∀ tx, build_reveal_transaction wallet key_pair reveal_script taproot_spend_info
        commit_outpoint amount fee_amount is_rune additional_outputs = .ok tx →
      tx.input.map (fun i => i.previous_output) = [commit_outpoint] ∧
      tx.output =
        (if 0 < amount - fee_amount - sumValues additional_outputs then
          [({ value := amount - fee_amount - sumValues additional_outputs,
              script_pubkey := (wallet.new_address .bech32m).script_pubkey } : TxOut)]
        else []) ++ additional_outputs) := by
  constructor
  · unfold build_reveal_transaction
    cases hsub : (checked_sub_u64 amount fee_amount).bind
        (fun amt => checked_sub_u64 amt (sumValues additional_outputs)) with
    | none =>
      constructor
      · intro _
        exact (checked_sub_chain_none_iff amount fee_amount
          (sumValues additional_outputs)).mp hsub
      · intro _
        rfl
    | some r =>
      obtain ⟨hge, hreq⟩ := (checked_sub_chain_some_iff amount fee_amount
        (sumValues additional_outputs) r).mp hsub
      cases hcb : taproot_spend_info.control_block (reveal_script, .tapScript) with
      | none =>
        simp only [hcb]
        constructor
        · intro h; cases h
        · intro h; omega
      | some cb =>
        simp only [hcb]
        constructor
        · intro h; cases h
        · intro h; omega
  · intro tx h
    unfold build_reveal_transaction at h
    cases hsub : (checked_sub_u64 amount fee_amount).bind
        (fun amt => checked_sub_u64 amt (sumValues additional_outputs)) with
    | none =>
      rw [hsub] at h
      cases h
    | some r =>
      rw [hsub] at h
      obtain ⟨hge, hreq⟩ := (checked_sub_chain_some_iff amount fee_amount
        (sumValues additional_outputs) r).mp hsub
      subst hreq
      cases hcb : taproot_spend_info.control_block (reveal_script, .tapScript) with
      | none =>
        simp only [hcb] at h
        cases h
      | some cb =>
        simp only [hcb] at h
        injection h with h2
        subst h2
        exact ⟨rfl, rfl⟩

/-- **C5 witness**: the success half of the theorem applied at a concrete
input (amount 50000, fee 20000, caller outputs `[]`, remainder 30000). -/
theorem build_reveal_outputs_spec_witness :
    cRevealTx.input.map (fun i => i.previous_output) = [(⟨11, 0⟩ : OutPoint)] ∧
    cRevealTx.output =
      (if 0 < 50000 - 20000 - sumValues [] then
        [({ value := 50000 - 20000 - sumValues [],
            script_pubkey := (cWallet.new_address .bech32m).script_pubkey } : TxOut)]
      else []) ++ [] :=
  (build_reveal_outputs_spec cWallet ⟨3⟩ cRevealScript cSpendInfo ⟨11, 0⟩
    50000 20000 false []).2 cRevealTx rfl

/-! ## SingleUTXO strategy (C6)

`crates/wallet/src/wallet.rs` selects with `UTXOStrategy::SingleUTXO`
(lines 272 and 401), but the `UTXOStrategy` enum declared in
`crates/utxo-selection/src/lib.rs` under `src` has only four variants: the
crate version those call sites compile against is not under `src`.  The
variant and its selector are therefore modelled from the spec. -/

/-- Modelled from the spec: the missing `SingleUTXO` selector.  Spec §4.1:
"**SingleUTXO**: selects the first output whose amount alone covers
target+fee; fails if none qualifies." -/
def select_utxos_single (utxos : List ListUnspentResultEntry)
    (target_amount fee_amount : Nat) : Except UtilsError (List ListUnspentResultEntry) :=
  match utxos.find? (fun u => decide (target_amount + fee_amount ≤ u.amount)) with
  | some u => .ok [u]
  | none => .error .insufficientUTXOs

/-- Modelled from the spec: the full strategy interface offered to callers
(spec §3 `SelectionStrategy`), including the `SingleUTXO` variant that
`wallet.rs` uses. -/
inductive UTXOStrategyFull where
  | branchAndBound
  | fifo
  | largestFirst
  | smallestFirst
  | singleUTXO
deriving DecidableEq

/-- Modelled from the spec: strategy dispatch over the full interface; the
four declared variants dispatch to the `utxo-selection` code and
`SingleUTXO` to the spec-modelled selector. -/
def strat_handler_full (utxos : List ListUnspentResultEntry)
    (target_amount fee_amount : Nat) (utxo_strategy : UTXOStrategyFull) :
    Except UtilsError (List ListUnspentResultEntry) :=
  match utxo_strategy with
  | .branchAndBound => strat_handler utxos target_amount fee_amount .branchAndBound
  | .fifo => strat_handler utxos target_amount fee_amount .fifo
  | .largestFirst => strat_handler utxos target_amount fee_amount .largestFirst
  | .smallestFirst => strat_handler utxos target_amount fee_amount .smallestFirst
  | .singleUTXO => select_utxos_single utxos target_amount fee_amount

theorem select_utxos_single_ok_iff (utxos : List ListUnspentResultEntry)
    (target_amount fee_amount : Nat) (sel : List ListUnspentResultEntry) :
    select_utxos_single utxos target_amount fee_amount = .ok sel ↔
      ∃ pre u post, utxos = pre ++ u :: post ∧
        (∀ v ∈ pre, v.amount < target_amount + fee_amount) ∧
        target_amount + fee_amount ≤ u.amount ∧ sel = [u] := by
  induction utxos with
  | nil =>
    constructor
    · intro h
      cases h
    · rintro ⟨pre, u, post, h, -, -, -⟩
      cases pre <;> cases h
  | cons v rest ih =>
    by_cases hv : target_amount + fee_amount ≤ v.amount
    · have hstep : select_utxos_single (v :: rest) target_amount fee_amount = .ok [v] := by
        unfold select_utxos_single
        rw [List.find?_cons_of_pos _ (by simpa using hv)]
      rw [hstep]
      constructor
      · intro h
        injection h with h2
        refine ⟨[], v, rest, rfl, ?_, hv, h2.symm⟩
        intro w hw
        cases hw
      · rintro ⟨pre, u, post, heq, hpre, hu, hsel⟩
        cases pre with
        | nil =>
          injection heq with h1 h2
          subst h1
          subst hsel
          rfl
        | cons w pre' =>
          injection heq with h1 h2
          subst h1
          exact absurd hv (Nat.not_le.mpr (hpre v (List.mem_cons_self _ _)))
    · have hstep : select_utxos_single (v :: rest) target_amount fee_amount =
          select_utxos_single rest target_amount fee_amount := by
        unfold select_utxos_single
        rw [List.find?_cons_of_neg _ (by simpa using hv)]
      rw [hstep, ih]
      constructor
      · rintro ⟨pre, u, post, heq, hpre, hu, hsel⟩
        refine ⟨v :: pre, u, post, by rw [heq]; rfl, ?_, hu, hsel⟩
        intro w hw
        rcases List.mem_cons.mp hw with rfl | hw'
        · exact Nat.lt_of_not_le hv
        · exact hpre w hw'
      · rintro ⟨pre, u, post, heq, hpre, hu, hsel⟩
        cases pre with
        | nil =>
          injection heq with h1 h2
          subst h1
          exact absurd hu hv
        | cons w pre' =>
          injection heq with h1 h2
          exact ⟨pre', u, post, h2, fun x hx => hpre x (List.mem_cons_of_mem _ hx), hu, hsel⟩

theorem select_utxos_single_error_iff (utxos : List ListUnspentResultEntry)
    (target_amount fee_amount : Nat) :
    select_utxos_single utxos target_amount fee_amount = .error .insufficientUTXOs ↔
      ∀ u ∈ utxos, u.amount < target_amount + fee_amount := by
  unfold select_utxos_single
  cases hf : utxos.find? (fun u => decide (target_amount + fee_amount ≤ u.amount)) with
  | none =>
    constructor
    · intro _ u hu
      have := List.find?_eq_none.mp hf u hu
      simpa using this
    · intro _
      rfl
  | some u =>
    constructor
    · intro h
      cases h
    · intro hall
      exfalso
      have h1 := List.find?_some hf
      have h2 := List.mem_of_find?_eq_some hf
      have h3 := hall u h2
      simp at h1
      omega

/-- **C6**: the selection interface (spec-modelled, because the
`SingleUTXO` variant that `wallet.rs` dispatches on is missing from the
`utxo-selection` crate under `src`) offers a `SingleUTXO` strategy, and
selecting with it returns exactly the first output whose amount alone covers
`target + fee` (the list splits as `pre ++ u :: post` with every output of
`pre` not qualifying and `u` qualifying), and fails with `InsufficientUTXOs`
exactly when no single output qualifies. -/
theorem single_utxo_spec (utxos : List ListUnspentResultEntry)
    (target_amount fee_amount : Nat) :
    (∀ sel, strat_handler_full utxos target_amount fee_amount .singleUTXO = .ok sel ↔
       ∃ pre u post, utxos = pre ++ u :: post ∧
         (∀ v ∈ pre, v.amount < target_amount + fee_amount) ∧
         target_amount + fee_amount ≤ u.amount ∧ sel = [u]) ∧
    (strat_handler_full utxos target_amount fee_amount .singleUTXO =
        .error .insufficientUTXOs ↔
      ∀ u ∈ utxos, u.amount < target_amount + fee_amount) :=
  ⟨fun sel => select_utxos_single_ok_iff utxos target_amount fee_amount sel,
   select_utxos_single_error_iff utxos target_amount fee_amount⟩

/-- **C6 witness**: the theorem applied at a concrete input — the first (and
only) output covering `500 + 50` alone is the second one. -/
theorem single_utxo_spec_witness :
    strat_handler_full [⟨1, 0, 100, 1⟩, ⟨2, 0, 600, 1⟩] 500 50 .singleUTXO =
      .ok [⟨2, 0, 600, 1⟩] :=
  ((single_utxo_spec [⟨1, 0, 100, 1⟩, ⟨2, 0, 600, 1⟩] 500 50).1 [⟨2, 0, 600, 1⟩]).mpr
    ⟨[⟨1, 0, 100, 1⟩], ⟨2, 0, 600, 1⟩, [], rfl, by decide, by decide, rfl⟩

/-! ## Ordinals envelope encoder (`crates/ordinals/src/lib.rs`)

Byte strings are `List Nat`.  The `crate::utils::constants` module is not
under `src`; its tag values are modelled from the spec (§4.2's ord envelope
scheme).  `MAX_SCRIPT_ELEMENT_SIZE` is the `bitcoin` crate's 520-byte
maximum standard push size. -/

/-- `bitcoin::constants::MAX_SCRIPT_ELEMENT_SIZE`. -/
def MAX_SCRIPT_ELEMENT_SIZE : Nat := 520

/-- Fuel-driven worker for `[u8]::chunks`: `l.length` fuel always suffices
when the chunk size is positive. -/
def chunksOfAux (n : Nat) : Nat → List Nat → List (List Nat)
  | 0, _ => []
  | _, [] => []
  | fuel + 1, l => l.take n :: chunksOfAux n fuel (l.drop n)

/-- `[u8]::chunks(n)`: consecutive chunks of at most `n` bytes; the empty
slice yields no chunks. -/
def chunksOf (n : Nat) (l : List Nat) : List (List Nat) :=
  chunksOfAux n l.length l

theorem chunksOfAux_congr (n : Nat) (hn : 0 < n) :
    ∀ (fuel fuel' : Nat) (l : List Nat), l.length ≤ fuel → l.length ≤ fuel' →
      chunksOfAux n fuel l = chunksOfAux n fuel' l := by
  intro fuel
  induction fuel with
  | zero =>
    intro fuel' l h _
    have hl : l = [] := List.eq_nil_of_length_eq_zero (Nat.le_zero.mp h)
    subst hl
    cases fuel' <;> rfl
  | succ fuel ih =>
    intro fuel' l h h'
    cases l with
    | nil => cases fuel' <;> rfl
    | cons x xs =>
      cases fuel' with
      | zero => simp at h'
      | succ fuel'' =>
        simp only [chunksOfAux]
        congr 1
        apply ih
        · rw [List.length_drop]
          simp only [List.length_cons] at h ⊢
          omega
        · rw [List.length_drop]
          simp only [List.length_cons] at h' ⊢
          omega

theorem chunksOf_cons_eq (n : Nat) (hn : 0 < n) (l : List Nat) (hl : l ≠ []) :
    chunksOf n l = l.take n :: chunksOf n (l.drop n) := by
  unfold chunksOf
  cases l with
  | nil => exact absurd rfl hl
  | cons x xs =>
    show chunksOfAux n (xs.length + 1) (x :: xs) = _
    simp only [chunksOfAux]
    congr 1
    apply chunksOfAux_congr n hn
    · rw [List.length_drop]
      simp only [List.length_cons]
      omega
    · exact Nat.le_refl _

theorem chunksOfAux_mem_length (n : Nat) : ∀ (fuel : Nat) (l c : List Nat),
    c ∈ chunksOfAux n fuel l → c.length ≤ n := by
  intro fuel
  induction fuel with
  | zero =>
    intro l c h
    cases l with
    | nil => cases h
    | cons x xs => cases h
  | succ fuel ih =>
    intro l c h
    cases l with
    | nil => cases h
    | cons x xs =>
      simp only [chunksOfAux] at h
      rcases List.mem_cons.mp h with rfl | h'
      · simp
      · exact ih _ c h'

/-- Every chunk produced by `chunksOf` respects the chunk size. -/
theorem chunksOf_mem_length (n : Nat) (l c : List Nat) (h : c ∈ chunksOf n l) :
    c.length ≤ n :=
  chunksOfAux_mem_length n l.length l c h

/-- Modelled from the spec: `crate::utils::constants` is missing from `src`;
the protocol marker is the ord envelope protocol id. -/
def PROTOCOL_ID : List Nat := [111, 114, 100]

/-- Modelled from the spec: the ord envelope tag constants of the missing
`constants` module. -/
def CONTENT_TYPE_TAG : List Nat := [1]

/-- Modelled from the spec (missing `constants` module). -/
def POINTER_TAG : List Nat := [2]

/-- Modelled from the spec (missing `constants` module). -/
def PARENT_TAG : List Nat := [3]

/-- Modelled from the spec (missing `constants` module). -/
def METADATA_TAG : List Nat := [5]

/-- Modelled from the spec (missing `constants` module). -/
def METAPROTOCOL_TAG : List Nat := [7]

/-- Modelled from the spec (missing `constants` module). -/
def CONTENT_ENCODING_TAG : List Nat := [9]

/-- Modelled from the spec (missing `constants` module). -/
def DELEGATE_TAG : List Nat := [11]

/-- Modelled from the spec (missing `constants` module). -/
def RUNE_TAG : List Nat := [13]

/-- Modelled from the spec (missing `constants` module): the body marker. -/
def BODY_TAG : List Nat := []

/-- `opcodes::OP_FALSE` (= `OP_0`). -/
def OP_FALSE : Nat := 0

/-- `opcodes::all::OP_IF`. -/
def OP_IF : Nat := 99

/-- `opcodes::all::OP_ENDIF`. -/
def OP_ENDIF : Nat := 104

/-- `InscriptionData` from `crates/ordinals/src/lib.rs` (lines 20–34). -/
structure InscriptionData where
  body : Option (List Nat)
  content_encoding : Option (List Nat)
  content_type : Option (List Nat)
  delegate : Option (List Nat)
  duplicate_field : Bool
  incomplete_field : Bool
  metadata : Option (List Nat)
  metaprotocol : Option (List Nat)
  parents : List (List Nat)
  pointer : Option (List Nat)
  rune : Option (List Nat)
  unrecognized_even_field : Bool
deriving DecidableEq

/-- `is_chunked` from `crates/ordinals/src/lib.rs` (lines 193–195): only the
metadata tag is chunked. -/
def is_chunked (tag : List Nat) : Bool :=
  decide (tag = METADATA_TAG)

/-- `InscriptionData::append` (lines 107–126): nothing for a missing field;
a tag+chunk push-pair per `MAX_SCRIPT_ELEMENT_SIZE` chunk for the chunked
tag; otherwise a single tag+value push-pair — the value is pushed whole,
whatever its size (the `try_into().unwrap()` conversion to `PushBytes` does
not enforce the 520-byte limit). -/
def append_field (tag : List Nat) (builder : List ScriptItem)
    (value : Option (List Nat)) : List ScriptItem :=
  match value with
  | none => builder
  | some v =>
    if is_chunked tag then
      (chunksOf MAX_SCRIPT_ELEMENT_SIZE v).foldl
        (fun b chunk => b ++ [.push tag, .push chunk]) builder
    else builder ++ [.push tag, .push v]

/-- `InscriptionData::append_array` (lines 128–139): one tag+value push-pair
per entry. -/
def append_array (tag : List Nat) (builder : List ScriptItem)
    (values : List (List Nat)) : List ScriptItem :=
  values.foldl (fun b value => b ++ [.push tag, .push value]) builder

/-- The error type of the encoder's `Result` (the Rust function's only
errors come from `validate_content_type`, never from
`append_reveal_script_to_builder` itself). -/
inductive EncodeError where
  | invalidContentType
  | invalidUtf8
deriving DecidableEq

/-- `InscriptionData::append_reveal_script_to_builder` (lines 67–105):
`OP_FALSE OP_IF`, protocol marker push, then content-type, content-encoding,
metaprotocol, parents, delegate, pointer, metadata, rune; then the body tag
once followed by the body chunks; then `OP_ENDIF`. -/
def append_reveal_script_to_builder (i : InscriptionData)
    (builder : List ScriptItem) : Except EncodeError (List ScriptItem) :=
  let b := builder ++ [.op OP_FALSE, .op OP_IF, .push PROTOCOL_ID]
  let b := append_field CONTENT_TYPE_TAG b i.content_type
  let b := append_field CONTENT_ENCODING_TAG b i.content_encoding
  let b := append_field METAPROTOCOL_TAG b i.metaprotocol
  let b := append_array PARENT_TAG b i.parents
  let b := append_field DELEGATE_TAG b i.delegate
  let b := append_field POINTER_TAG b i.pointer
  let b := append_field METADATA_TAG b i.metadata
  let b := append_field RUNE_TAG b i.rune
  let b := match i.body with
    | none => b
    | some body =>
      (chunksOf MAX_SCRIPT_ELEMENT_SIZE body).foldl
        (fun bb chunk => bb ++ [.push chunk]) (b ++ [.push BODY_TAG])
  .ok (b ++ [.op OP_ENDIF])

/-! ## Envelope layout (spec §4.2) and the C7/C8 theorems -/

theorem foldl_append_eq_flatten {α : Type} (g : α → List ScriptItem) :
    ∀ (l : List α) (builder : List ScriptItem),
      l.foldl (fun b x => b ++ g x) builder = builder ++ (l.map g).flatten := by
  intro l
  induction l with
  | nil => intro b; simp
  | cons x xs ih =>
    intro b
    simp only [List.foldl_cons, List.map_cons, List.flatten_cons]
    rw [ih, List.append_assoc]

theorem foldl_append_push (chunks : List (List Nat)) (builder : List ScriptItem) :
    chunks.foldl (fun bb chunk => bb ++ [ScriptItem.push chunk]) builder =
      builder ++ chunks.map ScriptItem.push := by
  induction chunks generalizing builder with
  | nil => simp
  | cons c cs ih =>
    simp only [List.foldl_cons, List.map_cons]
    rw [ih, List.append_assoc]
    rfl

/-- Spec-side layout of one optional field: absent fields emit nothing; the
chunked field emits one tag+chunk push-pair per chunk; any other field emits
a single tag+value push-pair. -/
def field_layout (tag : List Nat) : Option (List Nat) → List ScriptItem
  | none => []
  | some v =>
    if is_chunked tag then
      ((chunksOf MAX_SCRIPT_ELEMENT_SIZE v).map
        (fun c => [ScriptItem.push tag, ScriptItem.push c])).flatten
    else [.push tag, .push v]

/-- Spec-side layout of the repeated parent field: one tag+value push-pair
per parent, in order. -/
def parent_layout (values : List (List Nat)) : List ScriptItem :=
  (values.map (fun v => [ScriptItem.push PARENT_TAG, ScriptItem.push v])).flatten

/-- Spec-side layout of the body: the body tag once, then the body chunks. -/
def body_layout : Option (List Nat) → List ScriptItem
  | none => []
  | some body =>
    .push BODY_TAG :: (chunksOf MAX_SCRIPT_ELEMENT_SIZE body).map .push

/-- The spec's §4.2 fixed envelope layout: the `OP_FALSE OP_IF … OP_ENDIF`
guard around the protocol marker and then, in fixed order: content-type,
content-encoding, metaprotocol, repeated parents, delegate, pointer,
metadata, protocol-tag (rune), body. -/
def reveal_script_layout (i : InscriptionData) : List ScriptItem :=
  [.op OP_FALSE, .op OP_IF, .push PROTOCOL_ID] ++
  field_layout CONTENT_TYPE_TAG i.content_type ++
  field_layout CONTENT_ENCODING_TAG i.content_encoding ++
  field_layout METAPROTOCOL_TAG i.metaprotocol ++
  parent_layout i.parents ++
  field_layout DELEGATE_TAG i.delegate ++
  field_layout POINTER_TAG i.pointer ++
  field_layout METADATA_TAG i.metadata ++
  field_layout RUNE_TAG i.rune ++
  body_layout i.body ++
  [.op OP_ENDIF]

theorem append_field_eq (tag : List Nat) (builder : List ScriptItem)
    (value : Option (List Nat)) :
    append_field tag builder value = builder ++ field_layout tag value := by
  cases value with
  | none => simp [append_field, field_layout]
  | some v =>
    simp only [append_field, field_layout]
    by_cases h : is_chunked tag
    · rw [if_pos h, if_pos h]
      exact foldl_append_eq_flatten _ _ _
    · rw [if_neg h, if_neg h]

theorem append_array_eq (tag : List Nat) (builder : List ScriptItem)
    (values : List (List Nat)) :
    append_array tag builder values =
      builder ++ (values.map (fun v => [ScriptItem.push tag, ScriptItem.push v])).flatten := by
  unfold append_array
  exact foldl_append_eq_flatten _ _ _

theorem flatten_map_push_singleton (l : List (List Nat)) :
    (l.map (fun c => [ScriptItem.push c])).flatten = l.map ScriptItem.push := by
  induction l with
  | nil => rfl
  | cons c cs ih => simp [ih]

set_option maxRecDepth 4000 in
/-- The encoder always succeeds and produces exactly the spec layout
appended to the incoming builder. -/
theorem append_reveal_script_eq_layout (i : InscriptionData)
    (builder : List ScriptItem) :
    append_reveal_script_to_builder i builder =
      .ok (builder ++ reveal_script_layout i) := by
  simp only [append_reveal_script_to_builder, reveal_script_layout]
  rw [append_field_eq, append_field_eq, append_field_eq, append_array_eq,
      append_field_eq, append_field_eq, append_field_eq, append_field_eq]
  cases hb : i.body with
  | none =>
    simp only [body_layout, parent_layout, List.append_assoc, List.append_nil]
  | some body =>
    simp only [foldl_append_push, body_layout, parent_layout, List.append_assoc,
      List.cons_append, List.singleton_append, List.nil_append]

/-- **C7**: for every envelope and incoming builder, the encoded reveal
script wraps the payload in an `OP_FALSE OP_IF … OP_ENDIF` guard (so the
payload is never executed) and emits the present fields in exactly the fixed
order of `reveal_script_layout`: protocol marker, content-type,
content-encoding, metaprotocol, repeated parent tags, delegate, pointer,
metadata, protocol-tag (rune), then body. -/
theorem reveal_script_field_order (i : InscriptionData)
    (builder : List ScriptItem) :
    append_reveal_script_to_builder i builder =
      .ok (builder ++ reveal_script_layout i) :=
  append_reveal_script_eq_layout i builder

set_option maxRecDepth 40000 in
/-- **C8 counterexample**: the claim says any non-body/non-metadata field
whose value exceeds one push makes encoding fail with `FieldTooLarge`.  A
content-type of 521 bytes — one more than `MAX_SCRIPT_ELEMENT_SIZE` — is
instead emitted whole as a single oversized push and encoding succeeds; no
`FieldTooLarge` error exists in the code. -/
theorem oversized_field_counterexample :
    append_reveal_script_to_builder
      { body := none, content_encoding := none,
        content_type := some (List.replicate 521 7), delegate := none,
        duplicate_field := false, incomplete_field := false, metadata := none,
        metaprotocol := none, parents := [], pointer := none, rune := none,
        unrecognized_even_field := false } [] =
      .ok [.op OP_FALSE, .op OP_IF, .push PROTOCOL_ID, .push CONTENT_TYPE_TAG,
           .push (List.replicate 521 7), .op OP_ENDIF] ∧
    MAX_SCRIPT_ELEMENT_SIZE < (List.replicate 521 7).length := by
  exact ⟨rfl, by decide⟩

/-- **C8** (amended): encoding never fails (there is no `FieldTooLarge`
error); the metadata field — the only tag with `is_chunked` — is split into
tag-prefixed chunks each at most `MAX_SCRIPT_ELEMENT_SIZE` bytes; every
other tagged field is emitted as a single tag+value push-pair of its full
value, regardless of size. -/
theorem field_chunking_spec :
    (∀ (i : InscriptionData) (builder : List ScriptItem),
       ∃ out, append_reveal_script_to_builder i builder = .ok out) ∧
    (∀ (builder : List ScriptItem) (v : List Nat),
       append_field METADATA_TAG builder (some v) =
         builder ++ ((chunksOf MAX_SCRIPT_ELEMENT_SIZE v).map
           (fun c => [ScriptItem.push METADATA_TAG, ScriptItem.push c])).flatten) ∧
    (∀ (v c : List Nat), c ∈ chunksOf MAX_SCRIPT_ELEMENT_SIZE v →
       c.length ≤ MAX_SCRIPT_ELEMENT_SIZE) ∧
    (∀ (tag : List Nat) (builder : List ScriptItem) (v : List Nat),
       tag ≠ METADATA_TAG →
       append_field tag builder (some v) = builder ++ [.push tag, .push v]) := by
  refine ⟨?_, ?_, ?_, ?_⟩
  · intro i builder
    exact ⟨builder ++ reveal_script_layout i, append_reveal_script_eq_layout i builder⟩
  · intro builder v
    simp only [append_field]
    rw [if_pos (show is_chunked METADATA_TAG = true by decide)]
    exact foldl_append_eq_flatten _ _ _
  · intro v c h
    exact chunksOf_mem_length MAX_SCRIPT_ELEMENT_SIZE v c h
  · intro tag builder v h
    simp only [append_field]
    rw [if_neg (show ¬ is_chunked tag = true by simp [is_chunked, h])]

/-- **C8 witness**: the single-push clause applied to a concrete oversized
content-type value. -/
theorem field_chunking_spec_witness :
    CONTENT_TYPE_TAG ≠ METADATA_TAG ∧
    append_field CONTENT_TYPE_TAG [] (some (List.replicate 521 7)) =
      [] ++ [.push CONTENT_TYPE_TAG, .push (List.replicate 521 7)] :=
  ⟨by decide,
    field_chunking_spec.2.2.2 CONTENT_TYPE_TAG [] (List.replicate 521 7) (by decide)⟩

/-! ## Multisig xpub extraction (`crates/wallet/src/multisig_wallet.rs`)

Rust strings are byte sequences (`List Nat`); `serde_json::Value` is modelled
with the constructors the function touches (`Null`, `String`, `Object`). -/

/-- A Rust string as its byte sequence. -/
abbrev RStr := List Nat

/-- `serde_json::Value`, restricted to the shapes `extract_int_ext_xpubs`
distinguishes. -/
inductive Json where
  | null
  | str (s : RStr)
  | obj (fields : List (RStr × Json))

/-- `value[key]` on a `serde_json::Value`: `Null` unless the value is an
object with that key. -/
def Json.index (v : Json) (key : RStr) : Json :=
  match v with
  | .obj fields =>
    ((fields.find? (fun p => decide (p.1 = key))).map (fun p => p.2)).getD .null
  | _ => .null

/-- `Value::as_str`: `Some` only on JSON strings. -/
def Json.as_str : Json → Option RStr
  | .str s => some s
  | _ => none

/-- `str::starts_with`. -/
def rstr_starts_with (s pre : RStr) : Bool :=
  pre.isPrefixOf s

/-- `str::contains` for a literal pattern: some position of `s` starts with
`pat`. -/
def rstr_contains (s pat : RStr) : Bool :=
  (List.range (s.length + 1)).any (fun k => pat.isPrefixOf (s.drop k))

/-- `str::split` for a one-byte pattern (the code splits on `"]"` and
`")"`): the list of separated pieces; never empty. -/
def rstr_split_on (c : Nat) : RStr → List RStr
  | [] => [[]]
  | x :: xs =>
    match rstr_split_on c xs with
    | [] => [[]]
    | h :: t => if x = c then [] :: h :: t else (x :: h) :: t

/-- The typed failures of `extract_int_ext_xpubs` (Rust formats them as
strings such as `"External xpub not found for wallet {i+1}"`); the payload is
the 1-based wallet number in the message. -/
inductive XpubError where
  | externalXpubNotFound (wallet_number : Nat)
  | externalXpubParse (wallet_number : Nat)
  | internalXpubNotFound (wallet_number : Nat)
  | internalXpubParse (wallet_number : Nat)
deriving DecidableEq

/-- A key of the `xpubs` map: `"external_xpub_{n}"` / `"internal_xpub_{n}"`. -/
structure XpubKey where
  is_internal : Bool
  wallet_number : Nat
deriving DecidableEq

/-- `HashMap::insert`: replace any existing entry for the key. -/
def xpubs_insert (m : List (XpubKey × RStr)) (k : XpubKey) (v : RStr) :
    List (XpubKey × RStr) :=
  (k, v) :: m.filter (fun p => !(decide (p.1 = k)))

/-- The bytes of `"wpkh"`. -/
def WPKH : RStr := [119, 112, 107, 104]

/-- The bytes of `"/0/*"`. -/
def EXTERNAL_PATTERN : RStr := [47, 48, 47, 42]

/-- The bytes of `"/1/*"`. -/
def INTERNAL_PATTERN : RStr := [47, 49, 47, 42]

/-- The bytes of `"desc"`. -/
def DESC_KEY : RStr := [100, 101, 115, 99]

/-- `desc["desc"].as_str().unwrap_or_default()` — the string the search
predicate inspects. -/
def desc_field_str (d : Json) : RStr :=
  ((d.index DESC_KEY).as_str).getD []

/-- `extract_int_ext_xpubs` from `crates/wallet/src/multisig_wallet.rs`
(lines 149–196).  Note the Rust chains `.find(…)` — which yields the
descriptor *object* — directly into `.as_str()`, not into
`["desc"].as_str()`; the subsequent `"]"`/`")"` stripping and map insertion
follow the source verbatim. -/
def extract_int_ext_xpubs (xpubs : List (XpubKey × RStr))
    (descriptors_array : List Json) (i : Nat) :
    Except XpubError (List (XpubKey × RStr)) :=
  match descriptors_array.find? (fun desc =>
      rstr_starts_with (desc_field_str desc) WPKH &&
      rstr_contains (desc_field_str desc) EXTERNAL_PATTERN) with
  | none => .error (.externalXpubNotFound (i + 1))
  | some ext_desc =>
    match ext_desc.as_str with
    | none => .error (.externalXpubParse (i + 1))
    | some external_xpub =>
      match descriptors_array.find? (fun desc =>
          rstr_starts_with (desc_field_str desc) WPKH &&
          rstr_contains (desc_field_str desc) INTERNAL_PATTERN) with
      | none => .error (.internalXpubNotFound (i + 1))
      | some int_desc =>
        match int_desc.as_str with
        | none => .error (.internalXpubParse (i + 1))
        | some internal_xpub =>
          let external_xpub_no_path := (rstr_split_on 93 external_xpub).getLastD []
          let internal_xpub_no_path := (rstr_split_on 93 internal_xpub).getLastD []
          let external_xpub_no_path := (rstr_split_on 41 external_xpub_no_path).headD []
          let internal_xpub_no_path := (rstr_split_on 41 internal_xpub_no_path).headD []
          .ok (xpubs_insert
            (xpubs_insert xpubs ⟨true, i + 1⟩ internal_xpub_no_path)
            ⟨false, i + 1⟩ external_xpub_no_path)

/-- The bytes of `"wpkh([aa]xpubA/0/*)#q"` — a well-formed external
watch-only descriptor string. -/
def cExtDescStr : RStr :=
  WPKH ++ [40, 91, 97, 97, 93, 120, 112, 117, 98, 65] ++ EXTERNAL_PATTERN ++ [41, 35, 113]

/-- The bytes of `"wpkh([aa]xpubB/1/*)#q"` — a well-formed internal
watch-only descriptor string. -/
def cIntDescStr : RStr :=
  WPKH ++ [40, 91, 97, 97, 93, 120, 112, 117, 98, 66] ++ INTERNAL_PATTERN ++ [41, 35, 113]

/-- A `listdescriptors` element carrying the external descriptor: an object
whose `desc` field is the descriptor string (the shape the caller in
`MultisigWallet::new` passes). -/
def cDescExt : Json := .obj [(DESC_KEY, .str cExtDescStr)]

/-- A `listdescriptors` element carrying the internal descriptor. -/
def cDescInt : Json := .obj [(DESC_KEY, .str cIntDescStr)]

/-- **C9** (code bug): on a descriptor array containing both a `/0/*` and a
`/1/*` wpkh descriptor object — the shape `listdescriptors` returns and the
claim's success case — extraction does *not* return the stripped xpub
strings: the code calls `.as_str()` on the found descriptor *object* instead
of its `"desc"` field, so it fails with the parse error and the stripping
code is unreachable.  On an array lacking a `/0/*` descriptor it correctly
fails with the descriptor-not-found error. -/
theorem extract_xpubs_code_bug :
    extract_int_ext_xpubs [] [cDescExt, cDescInt] 0 =
      .error (.externalXpubParse 1) ∧
    extract_int_ext_xpubs [] [cDescInt] 0 =
      .error (.externalXpubNotFound 1) := by
  exact ⟨rfl, rfl⟩
